import Mathlib

/-!
# Verification of the get-llms-txt pipeline (src/index.ts)

A shallow embedding of the TypeScript source in Lean 4, together with
theorems settling the specification claims.

Modelling conventions:
* JavaScript strings are modelled as `List Char`.  The helper `cs`
  converts a Lean string literal into that representation.
* The filesystem collaborators (glob discovery, read, write, mkdir) are
  out of scope per the specification; file reads are modelled by passing
  the raw file text directly, and writes/mkdirs are recorded as a trace
  of `FsOp` values.
* Regular-expression matching is embedded by hand-written scanners that
  follow the JS engine semantics (leftmost match, greedy/lazy
  quantifiers with backtracking) for the specific patterns used by the
  source.  Line terminators are modelled as a single newline character
  (the rare JS terminators CR / U+2028 / U+2029 are not modelled), and
  the JS whitespace class is modelled by `Char.isWhitespace`
  (space, tab, CR, LF).
* Node `path.posix` functions (`dirname`, `basename`, `extname`,
  `join`, `resolve`, `normalize`) are reimplemented following the Node
  source algorithms, with POSIX separators (`path.sep = '/'`).
-/

set_option maxRecDepth 4096
set_option autoImplicit false

/-- Characters of a string literal (JS strings become `List Char`). -/
def cs (s : String) : List Char := s.data

/-- JS `\w` character class: `[A-Za-z0-9_]`. -/
def isWordChar (c : Char) : Bool := c.isAlpha || c.isDigit || c = '_'

/-- Quote characters recognised by the metadata parsers (`'` or `"`). -/
def isQuote (c : Char) : Bool := c = '\'' || c = '"'

/-- JS `String.prototype.trim` on the model (whitespace at both ends). -/
def jsTrim (s : List Char) : List Char :=
  ((s.dropWhile Char.isWhitespace).reverse.dropWhile Char.isWhitespace).reverse

/-- `.replace(/['"]/g, '')`: remove every quote character. -/
def removeAllQuotes (s : List Char) : List Char :=
  s.filter (fun c => !(isQuote c))

/-- `.replace(/\n/g, ' ')`: replace newlines by spaces. -/
def replaceNlSpace (s : List Char) : List Char :=
  s.map (fun c => if c = '\n' then ' ' else c)

/-- `.replace(/^['"]|['"]$/g, '')`: strip one leading and one trailing
quote character (independently, possibly mismatched). -/
def stripEdgeQuotes (s : List Char) : List Char :=
  let s1 := if isQuote (s.headD ' ') && s ≠ [] then s.drop 1 else s
  match s1.getLast? with
  | some c => if isQuote c then s1.dropLast else s1
  | none => s1

/-- JS `String.prototype.split(sep)` for a single-character separator:
`"".split(sep) = [""]`, separators delimit (possibly empty) fields. -/
def splitOnChar (sep : Char) : List Char → List (List Char)
  | [] => [[]]
  | c :: rest =>
    if c = sep then [] :: splitOnChar sep rest
    else
      match splitOnChar sep rest with
      | [] => [[c]]
      | g :: gs => (c :: g) :: gs

/-- Split on `'/'` — `file.split(path.sep)` with POSIX separator. -/
def splitSlash (s : List Char) : List (List Char) := splitOnChar '/' s

/-- Split on newline — used for frontmatter line iteration and for the
line-level view of body scanning. -/
def splitNl (s : List Char) : List (List Char) := splitOnChar '\n' s

/-- Index of the last `'\n'` inside a chunk, if any. -/
def lastNewlineIdx (w : List Char) : Option Nat :=
  let k := (w.reverse.takeWhile (fun c => c ≠ '\n')).length
  if k = w.length then none else some (w.length - k - 1)

/-- `s` ends with `suf` (JS `endsWith` / regex `$`-anchored suffix). -/
def endsWith (s suf : List Char) : Bool := suf.isSuffixOf s

/-- Remove a suffix of the given length from the end (used together with
`endsWith` to model `$`-anchored regex replacement). -/
def dropSuffix (s suf : List Char) : List Char :=
  s.take (s.length - suf.length)

/-- A metadata value: a string, or an ordered sequence of strings
(the `tags` array form).  JS stores both in the same field. -/
inductive MetaValue where
  | str (s : List Char)
  | list (l : List (List Char))
deriving DecidableEq

/-- `FileMetadata`: a JS object, modelled as an association list from
keys to values; `metadata[key] = value` overwrites in place. -/
abbrev FileMetadata := List (List Char × MetaValue)

/-- Property read `metadata[k]`. -/
def lookupMeta (md : FileMetadata) (k : List Char) : Option MetaValue :=
  match md with
  | [] => none
  | (k', v) :: rest => if k' = k then some v else lookupMeta rest k

/-- Property write `metadata[k] = v` (overwrite keeps position, new key
is appended — JS object key insertion order). -/
def setKey (md : FileMetadata) (k : List Char) (v : MetaValue) : FileMetadata :=
  match md with
  | [] => [(k, v)]
  | (k', v') :: rest =>
    if k' = k then (k', v) :: rest else (k', v') :: setKey rest k v

/-- JS truthiness of a metadata value: the empty string is falsy, every
array (even empty) is truthy. -/
def jsTruthy : MetaValue → Bool
  | .str s => s ≠ []
  | .list _ => true

/-- `ProcessedContent`: extracted metadata plus residual body text. -/
structure ProcessedContent where
  metadata : FileMetadata
  content : List Char
deriving DecidableEq

/-! ## Node `path.posix` functions -/

/-- Segment-wise core of Node's `normalizeString`: drop empty and `"."`
segments; `".."` pops the previous segment unless it is itself `".."`,
and is kept (relative paths) or dropped (absolute paths) at the root. -/
def processSegs (segs : List (List Char)) (allowAboveRoot : Bool) :
    List (List Char) :=
  segs.foldl
    (fun acc seg =>
      if seg = [] || seg = cs "." then acc
      else if seg = cs ".." then
        if acc ≠ [] && acc.getLastD [] ≠ cs ".." then acc.dropLast
        else if allowAboveRoot then acc ++ [seg]
        else acc
      else acc ++ [seg])
    []

/-- Join segments with `'/'` (inverse of `splitSlash` on clean paths). -/
def joinSegs : List (List Char) → List Char
  | [] => []
  | [s] => s
  | s :: rest => s ++ '/' :: joinSegs rest

/-- Node `path.posix.normalize`. -/
def posixNormalize (p : List Char) : List Char :=
  if p = [] then cs "." else
  let isAbs := p.headD ' ' = '/'
  let trailingSep := p.getLastD ' ' = '/'
  let s := joinSegs (processSegs (splitSlash p) (!isAbs))
  if s = [] then
    if isAbs then cs "/" else if trailingSep then cs "./" else cs "."
  else
    let s := if trailingSep then s ++ cs "/" else s
    if isAbs then '/' :: s else s

/-- Node `path.posix.join(...parts)`: drop empty parts, concatenate with
`'/'`, normalize; all-empty input yields `"."`. -/
def joinList (parts : List (List Char)) : List Char :=
  let ne := parts.filter (fun s => s ≠ [])
  if ne = [] then cs "." else posixNormalize (joinSegs ne)

/-- Node `path.posix.dirname`.  Mirrors the Node loop: skip trailing
separators, then cut before the last separator run (ignoring a
separator at index 0, which signals the root instead). -/
def posixDirname (p : List Char) : List Char :=
  if p = [] then cs "." else
  let hasRoot := p.headD ' ' = '/'
  let r3 := ((p.reverse.dropWhile (fun c => c = '/')).dropWhile
    (fun c => c ≠ '/'))
  if 2 ≤ r3.length then
    if hasRoot && r3.length = 2 then cs "//" else p.take (r3.length - 1)
  else if hasRoot then cs "/" else cs "."

/-- Node `path.posix.basename(p)` (no extension argument): the last
component after stripping trailing separators. -/
def posixBasenamePlain (p : List Char) : List Char :=
  (((p.reverse.dropWhile (fun c => c = '/')).takeWhile
    (fun c => c ≠ '/'))).reverse

/-- Node `path.posix.basename(p, ext)`: strip `ext` from the last
component unless the component *is* `ext`.  When `ext` is longer than
the whole path (or empty) Node falls back to the plain basename; when
the path consists only of separators Node returns the path itself. -/
def posixBasenameExt (p ext : List Char) : List Char :=
  if ext ≠ [] && ext.length ≤ p.length then
    let b := posixBasenamePlain p
    if b = [] then p
    else if endsWith b ext && b ≠ ext then dropSuffix b ext else b
  else posixBasenamePlain p

/-- Node `path.posix.extname`: from the last `'.'` of the basename to
the end; empty when there is no dot, the dot is the first character of
the basename, or the basename is exactly `".."`. -/
def posixExtname (p : List Char) : List Char :=
  let b := posixBasenamePlain p
  let k := (b.reverse.takeWhile (fun c => c ≠ '.')).length
  if k = b.length then []
  else
    let i := b.length - k - 1
    if i = 0 then [] else if b = cs ".." then [] else b.drop i

/-- Node `path.posix.resolve(cwd, p)` under the assumption that `cwd`
is absolute (it models `process.cwd()`). -/
def posixResolve (cwd p : List Char) : List Char :=
  let resolvedPath := if p.headD ' ' = '/' then p else cwd ++ '/' :: p
  let s := joinSegs (processSegs (splitSlash resolvedPath) false)
  if s = [] then cs "/" else '/' :: s

/-! ## Regex scanners

Each scanner embeds one regular expression of the source, following the
JS engine semantics (leftmost match; greedy / lazy quantifiers with
backtracking) for that particular pattern. -/

/-- Scanner for `/^---\s*\n([\s\S]*?)\n---\s*\n/` (frontmatter): after a
candidate closing position, the `\n---` must be followed by a
whitespace run containing a newline (`\s*\n`, greedy, consumes up to
its last newline).  `acc` holds the reversed group read so far. -/
def scanFmEnd (acc : List Char) : List Char → Option (List Char × List Char)
  | [] => none
  | c :: rest =>
    if (c :: rest).take 4 = cs "\n---" then
      let afterClose := (c :: rest).drop 4
      let w2 := afterClose.takeWhile Char.isWhitespace
      match lastNewlineIdx w2 with
      | some j => some (acc.reverse, afterClose.drop (j + 1))
      | none => scanFmEnd (c :: acc) rest
    else scanFmEnd (c :: acc) rest

/-- Match `/^---\s*\n([\s\S]*?)\n---\s*\n/` against the start of the
file; returns the captured group and the text after the whole match
(the `replace(..., '')` residue). -/
def matchFrontmatter (content : List Char) : Option (List Char × List Char) :=
  if content.take 3 = cs "---" then
    let afterDash := content.drop 3
    let w := afterDash.takeWhile Char.isWhitespace
    match lastNewlineIdx w with
    | some j => scanFmEnd [] (afterDash.drop (j + 1))
    | none => none
  else none

/-- Match `/^(\w+):\s*(.+)$/` against one frontmatter line.  Returns the
key and the raw text after the colon.  Note: `\s*(.+)$` with greedy
backtracking captures the text after the maximal whitespace run — or
the run's last character when nothing follows it — and both callers
immediately `trim()` the capture, which collapses every case to
`trim(text after the colon)`; the raw text is returned here and the
callers trim. -/
def matchKeyValLine (line : List Char) : Option (List Char × List Char) :=
  let key := line.takeWhile isWordChar
  let rest := line.drop key.length
  if key ≠ [] && rest.headD ' ' = ':' then
    let after := rest.drop 1
    if after = [] then none else some (key, after)
  else none

/-- Frontmatter value in `processMDFile`:
`match[2]?.trim().replace(/^['"]|['"]$/g, '')` — always a string. -/
def mdLineValue (raw : List Char) : MetaValue :=
  .str (stripEdgeQuotes (jsTrim raw))

/-- Frontmatter value in `processMDXFile`: same trim and quote strip,
then bracket-delimited values are split on commas into an array, each
element trimmed and quote-stripped, empty elements dropped. -/
def mdxLineValue (raw : List Char) : MetaValue :=
  let value := stripEdgeQuotes (jsTrim raw)
  if value.headD ' ' = '[' && value.getLast? = some ']' then
    .list (((splitOnChar ',' ((value.drop 1).dropLast)).map
      (fun v => removeAllQuotes (jsTrim v))).filter (fun v => v ≠ []))
  else .str value

/-- Fold one frontmatter block into a metadata object, using the given
per-line value interpretation (`forEach` over `split('\n')`). -/
def parseFrontmatter (lineValue : List Char → MetaValue) (fm : List Char) :
    FileMetadata :=
  (splitNl fm).foldl
    (fun md line =>
      match matchKeyValLine line with
      | some (key, raw) => setKey md key (lineValue raw)
      | none => md)
    []

/-- Try the head of `/^export\s+const\s+metadata\s*=\s*{/` at a line
start; on success return the text right after the opening brace. -/
def tryExportHead (s : List Char) : Option (List Char) :=
  if s.take 6 = cs "export" then
    let s1 := s.drop 6
    let w1 := s1.takeWhile Char.isWhitespace
    if w1 = [] then none else
    let s2 := s1.drop w1.length
    if s2.take 5 = cs "const" then
      let s3 := s2.drop 5
      let w2 := s3.takeWhile Char.isWhitespace
      if w2 = [] then none else
      let s4 := s3.drop w2.length
      if s4.take 8 = cs "metadata" then
        let s5 := (s4.drop 8).dropWhile Char.isWhitespace
        if s5.headD ' ' = '=' then
          let s6 := (s5.drop 1).dropWhile Char.isWhitespace
          if s6.headD ' ' = '{' then some (s6.drop 1) else none
        else none
      else none
    else none
  else none

/-- Tail check `;?\s*\n` after the lazy `}` of the *match* regex
`/^export\s+const\s+metadata\s*=\s*({[\s\S]*?});?\s*\n/m`: optional
semicolon, then a whitespace run that must contain a newline. -/
def strictTailOk (u : List Char) : Bool :=
  let u1 := if u.headD ' ' = ';' then u.drop 1 else u
  (u1.takeWhile Char.isWhitespace).any (fun c => c = '\n')

/-- Lazy scan for the first `}` whose tail satisfies `;?\s*\n`;
returns the captured group `{...}`.  `acc` is the reversed interior. -/
def strictObjScan (acc : List Char) : List Char → Option (List Char)
  | [] => none
  | c :: rest =>
    if c = '}' && strictTailOk rest then
      some ('{' :: (acc.reverse ++ [c]))
    else strictObjScan (c :: acc) rest

/-- Scan line starts for the *match* regex of the export-metadata form;
returns the captured `{...}` group of the first (leftmost) match. -/
def exportMetaMatchGo : List Char → Bool → Option (List Char)
  | [], _ => none
  | c :: rest, atStart =>
    if atStart then
      match tryExportHead (c :: rest) with
      | some afterBrace =>
        match strictObjScan [] afterBrace with
        | some group => some group
        | none => exportMetaMatchGo rest (c = '\n')
      | none => exportMetaMatchGo rest (c = '\n')
    else exportMetaMatchGo rest (c = '\n')

/-- First match of `/^export\s+const\s+metadata\s*=\s*({[\s\S]*?});?\s*\n/m`. -/
def exportMetaMatch (content : List Char) : Option (List Char) :=
  exportMetaMatchGo content true

/-- Span removal for the *replace* regex
`/^export\s+const\s+metadata\s*=\s*({[\s\S]*?});?\s*\n?/m`: because its
tail `;?\s*\n?` is entirely optional, the lazy group ends at the first
`}` and the match swallows the optional semicolon plus the whole
following whitespace run.  Returns the remainder after the span when a
match starts exactly here. -/
def replaceObjSpan (t : List Char) : Option (List Char) :=
  let t1 := t.dropWhile (fun c => c ≠ '}')
  match t1 with
  | [] => none
  | _ :: u =>
    let u1 := if u.headD ' ' = ';' then u.drop 1 else u
    some (u1.dropWhile Char.isWhitespace)

/-- Scan line starts for the *replace* regex; returns the prefix before
the first match together with the remainder after it. -/
def exportReplaceGo : List Char → Bool → Option (List Char × List Char)
  | [], _ => none
  | c :: rest, atStart =>
    if atStart then
      match tryExportHead (c :: rest) with
      | some afterBrace =>
        match replaceObjSpan afterBrace with
        | some remainder => some ([], remainder)
        | none =>
          (exportReplaceGo rest (c = '\n')).map
            (fun pr => (c :: pr.1, pr.2))
      | none =>
        (exportReplaceGo rest (c = '\n')).map
          (fun pr => (c :: pr.1, pr.2))
    else
      (exportReplaceGo rest (c = '\n')).map
        (fun pr => (c :: pr.1, pr.2))

/-- `content.replace(/^export\s+const\s+metadata\s*=\s*({[\s\S]*?});?\s*\n?/m, '')`. -/
def exportReplaceRemove (content : List Char) : List Char :=
  match exportReplaceGo content true with
  | some (pre, rem) => pre ++ rem
  | none => content

/-- Try `/<field>:\s*['"]([^'"]+)['"]/` at this exact position
(`fieldColon` includes the colon, e.g. `title:`). -/
def tryQuotedFieldAt (fieldColon s : List Char) : Option (List Char) :=
  if s.take fieldColon.length = fieldColon then
    let s1 := (s.drop fieldColon.length).dropWhile Char.isWhitespace
    match s1 with
    | q :: rest =>
      if isQuote q then
        let v := rest.takeWhile (fun c => !(isQuote c))
        if v ≠ [] && isQuote ((rest.drop v.length).headD ' ') then some v
        else none
      else none
    | [] => none
  else none

/-- Leftmost match of `/<field>:\s*['"]([^'"]+)['"]/` anywhere in the
string (the pattern is unanchored, so e.g. `subtitle:` also matches
the `title:` pattern at an interior position). -/
def findQuotedField (fieldColon : List Char) : List Char → Option (List Char)
  | [] => none
  | c :: rest =>
    match tryQuotedFieldAt fieldColon (c :: rest) with
    | some v => some v
    | none => findQuotedField fieldColon rest

/-- Try `/tags:\s*\[([^\]]+)\]/` at this exact position; returns the
bracket interior. -/
def tryTagsAt (s : List Char) : Option (List Char) :=
  if s.take 5 = cs "tags:" then
    let s1 := (s.drop 5).dropWhile Char.isWhitespace
    if s1.headD ' ' = '[' then
      let inner := (s1.drop 1).takeWhile (fun c => c ≠ ']')
      if inner ≠ [] && (s1.drop 1).drop inner.length ≠ [] then some inner
      else none
    else none
  else none

/-- Leftmost match of `/tags:\s*\[([^\]]+)\]/`. -/
def findTagsInner : List Char → Option (List Char)
  | [] => none
  | c :: rest =>
    match tryTagsAt (c :: rest) with
    | some v => some v
    | none => findTagsInner rest

/-- `extractMetadataValues`: pull `title`, `description`, `slug`
(first quoted occurrence each) and `tags` (first bracketed list,
elements trimmed and quote-stripped, empties dropped, only stored when
non-empty) out of the object-literal text.  No other field is stored. -/
def extractMetadataValues (metadataStr : List Char) : FileMetadata :=
  let md : FileMetadata := []
  let md := match findQuotedField (cs "title:") metadataStr with
    | some t => setKey md (cs "title") (.str t)
    | none => md
  let md := match findQuotedField (cs "description:") metadataStr with
    | some d => setKey md (cs "description") (.str d)
    | none => md
  let md := match findQuotedField (cs "slug:") metadataStr with
    | some sl => setKey md (cs "slug") (.str sl)
    | none => md
  let md := match findTagsInner metadataStr with
    | some inner =>
      let tags := ((splitOnChar ',' inner).map
        (fun t => removeAllQuotes (jsTrim t))).filter (fun t => t ≠ [])
      if tags ≠ [] then setKey md (cs "tags") (.list tags) else md
    | none => md
  md

/-! ### Body scanning (title / description resolution) -/

/-- Largest backtracking index `k ∈ [1, |w|-1]` with `w[k] ≠ '\n'` —
used when `\s+` of the H1 regex runs to the end of the string and
`(.+)` must reclaim a final non-newline whitespace character. -/
def h1Backtrack (w : List Char) : Option Nat :=
  let r := (w.drop 1).reverse.dropWhile (fun c => c = '\n')
  match r with
  | [] => none
  | _ => let k := r.length; if 1 ≤ k then some k else none

/-- Leftmost match of `/^#\s+(.+)$/m` (first top-level heading): the
Boolean flag tracks whether the current position is a line start. -/
def firstH1Go : List Char → Bool → Option (List Char)
  | [], _ => none
  | c :: rest, atStart =>
    if atStart && c = '#' then
      let w := rest.takeWhile Char.isWhitespace
      if w = [] then firstH1Go rest (c = '\n')
      else
        let after := rest.drop w.length
        if after ≠ [] then some (after.takeWhile (fun x => x ≠ '\n'))
        else
          match h1Backtrack w with
          | some k => some ((w.drop k).takeWhile (fun x => x ≠ '\n'))
          | none => firstH1Go rest (c = '\n')
    else firstH1Go rest (c = '\n')

/-- `content.match(/^#\s+(.+)$/m)`, group 1. -/
def firstH1 (content : List Char) : Option (List Char) :=
  firstH1Go content true

/-- Leftmost match of `/^([^\n#].{50,200})/m` (first paragraph-like
line): a line start whose first character is neither newline nor `#`,
followed by at least 50 further non-newline characters; the greedy
`.{50,200}` captures at most 200 of them. -/
def firstParaGo : List Char → Bool → Option (List Char)
  | [], _ => none
  | c :: rest, atStart =>
    if atStart && c ≠ '\n' && c ≠ '#' &&
        50 ≤ (rest.takeWhile (fun x => x ≠ '\n')).length then
      some (c :: (rest.takeWhile (fun x => x ≠ '\n')).take 200)
    else firstParaGo rest (c = '\n')

/-- `content.match(/^([^\n#].{50,200})/m)`, group 1. -/
def firstParaMatch (content : List Char) : Option (List Char) :=
  firstParaGo content true

/-! ### MDX markup stripping (three global replaces) -/

/-- Try `<[A-Z][\w]*[^>]*>` (opening capitalised tag) at this position;
returns the matched length. -/
def matchUpperOpenAt (s : List Char) : Option Nat :=
  match s with
  | '<' :: c :: rest =>
    if c.isUpper then
      let wl := (rest.takeWhile isWordChar).length
      let afterName := rest.drop wl
      let attrs := afterName.takeWhile (fun x => x ≠ '>')
      if (afterName.drop attrs.length).headD ' ' = '>' then
        some (2 + wl + attrs.length + 1)
      else none
    else none
  | _ => none

/-- Try `<\/[A-Z][\w]*>` (closing capitalised tag) at this position;
returns the matched length. -/
def tryCloseTagAt (s : List Char) : Option Nat :=
  if s.take 2 = cs "</" then
    match s.drop 2 with
    | c :: r2 =>
      if c.isUpper then
        let wl := (r2.takeWhile isWordChar).length
        if (r2.drop wl).headD ' ' = '>' then some (2 + 1 + wl + 1) else none
      else none
    | [] => none
  else none

/-- Lazy `[\s\S]*?<\/[A-Z][\w]*>`: length up to and including the first
closing capitalised tag. -/
def findCloseTagEnd : List Char → Option Nat
  | [] => none
  | c :: rest =>
    match tryCloseTagAt (c :: rest) with
    | some n => some n
    | none => (findCloseTagEnd rest).map (fun n => n + 1)

/-- Try `/<[A-Z][\w]*[^>]*>[\s\S]*?<\/[A-Z][\w]*>/` at this position. -/
def matchPairedAt (s : List Char) : Option Nat :=
  match matchUpperOpenAt s with
  | some openLen =>
    match findCloseTagEnd (s.drop openLen) with
    | some closeLen => some (openLen + closeLen)
    | none => none
  | none => none

/-- Try `/<[A-Z][\w]*[^>]*\/>/` (self-closing capitalised tag) at this
position: the greedy `[^>]*` run must end with `/` right before `>`. -/
def matchSelfClosingAt (s : List Char) : Option Nat :=
  match s with
  | '<' :: c :: rest =>
    if c.isUpper then
      let wl := (rest.takeWhile isWordChar).length
      let afterName := rest.drop wl
      let attrs := afterName.takeWhile (fun x => x ≠ '>')
      if attrs.getLast? = some '/' &&
          (afterName.drop attrs.length).headD ' ' = '>' then
        some (2 + wl + attrs.length + 1)
      else none
    else none
  | _ => none

/-- Tail of the import regex after `import\s+`:
`.*?from\s+['"][^'"]+['"];?\s*\n?` — the lazy dots cannot cross a
newline, so `from` must occur on the same line; after it the whitespace
may span lines, then a quoted module, optional semicolon, and the
whole following whitespace run (`\s*\n?`, all optional). -/
def tryFromAt (s : List Char) : Option Nat :=
  if s.take 4 = cs "from" then
    let s1 := s.drop 4
    let w := s1.takeWhile Char.isWhitespace
    if w = [] then none else
    match s1.drop w.length with
    | q :: r =>
      if isQuote q then
        let m := r.takeWhile (fun c => !(isQuote c))
        if m ≠ [] && isQuote ((r.drop m.length).headD ' ') then
          let afterQ := (r.drop m.length).drop 1
          let semiLen := if afterQ.headD ' ' = ';' then 1 else 0
          let wsLen := ((afterQ.drop semiLen).takeWhile
            Char.isWhitespace).length
          some (4 + w.length + 1 + m.length + 1 + semiLen + wsLen)
        else none
      else none
    | [] => none
  else none

/-- Lazy scan (same line) for the `from ...` tail; returns the length
from the current position through the end of the matched tail. -/
def findFromTail : List Char → Option Nat
  | [] => none
  | c :: rest =>
    if c = '\n' then none
    else
      match tryFromAt (c :: rest) with
      | some k => some k
      | none => (findFromTail rest).map (fun n => n + 1)

/-- Try `/import\s+.*?from\s+['"][^'"]+['"];?\s*\n?/` at this position
(the pattern is unanchored — any occurrence of `import` starts a
candidate). -/
def matchImportAt (s : List Char) : Option Nat :=
  if s.take 6 = cs "import" then
    let s1 := s.drop 6
    let w := s1.takeWhile Char.isWhitespace
    if w = [] then none
    else (findFromTail (s1.drop w.length)).map (fun k => 6 + w.length + k)
  else none

/-- Global replace with the empty string: scan left to right, removing
each non-overlapping match and resuming after it.  Every matcher used
here consumes at least one character, so the resume point
`rest.drop (n - 1)` equals `(c :: rest).drop n`. -/
def replaceAllMatches (matcher : List Char → Option Nat) :
    List Char → List Char
  | [] => []
  | c :: rest =>
    match matcher (c :: rest) with
    | some n => replaceAllMatches matcher (rest.drop (n - 1))
    | none => c :: replaceAllMatches matcher rest
termination_by s => s.length
decreasing_by
  all_goals simp_wf
  all_goals omega

/-- `.replace(/<[A-Z][\w]*[^>]*>[\s\S]*?<\/[A-Z][\w]*>/g, '')`. -/
def stripPairedTags (s : List Char) : List Char :=
  replaceAllMatches matchPairedAt s

/-- `.replace(/<[A-Z][\w]*[^>]*\/>/g, '')`. -/
def stripSelfClosing (s : List Char) : List Char :=
  replaceAllMatches matchSelfClosingAt s

/-- `.replace(/import\s+.*?from\s+['"][^'"]+['"];?\s*\n?/g, '')`. -/
def stripImports (s : List Char) : List Char :=
  replaceAllMatches matchImportAt s

/-! ## The exported pipeline functions -/

/-- `processMDXFile` (on the file text; the `fs.readFileSync` read is a
collaborator and is modelled by passing the text).  Frontmatter first;
else the export-metadata form; then the three markup strips and a final
trim. -/
def processMDXFile (content : List Char) : ProcessedContent :=
  let mdAndBody :=
    match matchFrontmatter content with
    | some (fm, rest) =>
      if fm ≠ [] then (parseFrontmatter mdxLineValue fm, rest)
      else
        match exportMetaMatch content with
        | some metadataStr =>
          (extractMetadataValues metadataStr, exportReplaceRemove content)
        | none => (([] : FileMetadata), content)
    | none =>
      match exportMetaMatch content with
      | some metadataStr =>
        (extractMetadataValues metadataStr, exportReplaceRemove content)
      | none => (([] : FileMetadata), content)
  { metadata := mdAndBody.1
    content := jsTrim (stripImports (stripSelfClosing
      (stripPairedTags mdAndBody.2))) }

/-- `processMDFile`: frontmatter only (string values, no array
handling), then a final trim. -/
def processMDFile (content : List Char) : ProcessedContent :=
  match matchFrontmatter content with
  | some (fm, rest) =>
    if fm ≠ [] then
      { metadata := parseFrontmatter mdLineValue fm, content := jsTrim rest }
    else { metadata := [], content := jsTrim content }
  | none => { metadata := [], content := jsTrim content }

/-- Filename-derived title: basename without extension, `-`/`_`
replaced by spaces, first letter of every word upper-cased
(`\b\w` = a word character not preceded by a word character). -/
def titleFromFilename (filePath : List Char) : List Char :=
  let basename := posixBasenameExt filePath (posixExtname filePath)
  let spaced := basename.map (fun c => if c = '-' || c = '_' then ' ' else c)
  (spaced.foldl
    (fun acc c =>
      let prevIsWord := match acc.1 with
        | some prev => isWordChar prev
        | none => false
      let c' := if isWordChar c && !prevIsWord then c.toUpper else c
      (some c, c' :: acc.2))
    ((none : Option Char), ([] : List Char))).2.reverse

/-- `extractTitle`: the (truthy) metadata title, else the trimmed first
H1 text (`h1Match[1]?.trim() || ''` — empty when the heading text is
whitespace-only), else the filename-derived title.  The result is a
`MetaValue` because JS returns `metadata.title` unchanged, which an
adversarial metadata object can make an array. -/
def extractTitle (filePath : List Char) (metadata : FileMetadata)
    (content : List Char) : MetaValue :=
  match lookupMeta metadata (cs "title") with
  | some v =>
    if jsTruthy v then v
    else
      match firstH1 content with
      | some t => .str (jsTrim t)
      | none => .str (titleFromFilename filePath)
  | none =>
    match firstH1 content with
    | some t => .str (jsTrim t)
    | none => .str (titleFromFilename filePath)

/-- The (truthy) metadata description, if any. -/
def descMeta (metadata : FileMetadata) : Option MetaValue :=
  match lookupMeta metadata (cs "description") with
  | some v => if jsTruthy v then some v else none
  | none => none

/-- `extractDescription`: the truthy metadata description, else the
first paragraph-like match, trimmed, newlines collapsed, truncated to
200 characters; `undefined` (`none`) when neither exists. -/
def extractDescription (metadata : FileMetadata) (content : List Char) :
    Option MetaValue :=
  match descMeta metadata with
  | some v => some v
  | none =>
    (firstParaMatch content).map
      (fun m => .str ((replaceNlSpace (jsTrim m)).take 200))

/-- `ProcessedFile` — one manifest entry. -/
structure ProcessedFile where
  relativePath : List Char
  url : List Char
  title : MetaValue
  description : Option MetaValue
  category : List Char
deriving DecidableEq

/-- `category = parts[0] || 'other'` as a standalone function of the
relative path (`parts = file.split(path.sep)`). -/
def categoryOf (file : List Char) : List Char :=
  let first := (splitSlash file).headD []
  if first ≠ [] then first else cs "other"

/-- The urlPath computation of `discoverFiles` (lines 248-260): strip a
locale suffix `.en`/`.ru` before the final `.mdx`/`.md`, rewrite the
extension to `.md`, then alias `index`/`_index` filenames to the
containing directory's name when that name is truthy. -/
def stripLocaleSuffix (file : List Char) : List Char :=
  if endsWith file (cs ".en.mdx") then dropSuffix file (cs ".en.mdx") ++ cs ".mdx"
  else if endsWith file (cs ".ru.mdx") then dropSuffix file (cs ".ru.mdx") ++ cs ".mdx"
  else if endsWith file (cs ".en.md") then dropSuffix file (cs ".en.md") ++ cs ".md"
  else if endsWith file (cs ".ru.md") then dropSuffix file (cs ".ru.md") ++ cs ".md"
  else file

/-- `.replace(/\.(mdx|md)$/, '.md')`. -/
def rewriteExtToMd (p : List Char) : List Char :=
  if endsWith p (cs ".mdx") then dropSuffix p (cs ".mdx") ++ cs ".md"
  else if endsWith p (cs ".md") then dropSuffix p (cs ".md") ++ cs ".md"
  else p

/-- The full urlPath normalization. -/
def urlPathOf (file : List Char) : List Char :=
  let p := rewriteExtToMd (stripLocaleSuffix file)
  let dir := posixDirname p
  let basename := posixBasenameExt p (cs ".md")
  if basename = cs "index" ∨ basename = cs "_index" then
    let dirName := posixBasenamePlain dir
    if dirName ≠ [] then joinList [dir, dirName ++ cs ".md"] else p
  else p

/-- A recorded filesystem side effect.  `ensureDir` models the
`if (!fs.existsSync(d)) fs.mkdirSync(d, {recursive: true})` pair. -/
inductive FsOp where
  | ensureDir (p : List Char)
  | writeFile (p content : List Char)
deriving DecidableEq

/-- `discoverFiles`: the glob collaborator's result is passed in as the
list of (relative path, raw file text) pairs, in discovery order.  For
each file: dispatch on the extension, resolve title/description,
compute category and urlPath, record the manifest entry and the write
of the normalized body. -/
def discoverFiles (contentDir outputDir : List Char)
    (sources : List (List Char × List Char)) :
    List ProcessedFile × List FsOp :=
  match sources with
  | [] => ([], [])
  | (file, raw) :: rest =>
    let filePath := joinList [contentDir, file]
    let ext := posixExtname file
    let result :=
      if ext = cs ".mdx" then processMDXFile raw else processMDFile raw
    let title := extractTitle filePath result.metadata result.content
    let description := extractDescription result.metadata result.content
    let parts := splitSlash file
    let category := if parts.headD [] ≠ [] then parts.headD [] else cs "other"
    let urlPath := urlPathOf file
    let entry : ProcessedFile :=
      { relativePath := file
        url := cs "/md/" ++ urlPath
        title := title
        description := description
        category := category }
    let outputMdPath := joinList [outputDir, cs "md", urlPath]
    let outputMdDir := posixDirname outputMdPath
    let ops := [FsOp.ensureDir outputMdDir,
                FsOp.writeFile outputMdPath result.content]
    let tail := discoverFiles contentDir outputDir rest
    (entry :: tail.1, ops ++ tail.2)

/-- One step of the category grouping (`Map` insertion with push):
append to an existing key's array, else append a new key at the end
(JS `Map` preserves key insertion order). -/
def groupAdd (m : List (List Char × List ProcessedFile)) (f : ProcessedFile) :
    List (List Char × List ProcessedFile) :=
  if m.any (fun g => g.1 = f.category) then
    m.map (fun g => if g.1 = f.category then (g.1, g.2 ++ [f]) else g)
  else m ++ [(f.category, [f])]

/-- The grouping pass of `generateLLMsTxt` (lines 303-312). -/
def groupByCategory (files : List ProcessedFile) :
    List (List Char × List ProcessedFile) :=
  files.foldl groupAdd []

/-- Comma-join of array elements (JS `Array.prototype.toString`). -/
def joinCommas : List (List Char) → List Char
  | [] => []
  | [x] => x
  | x :: rest => x ++ ',' :: joinCommas rest

/-- JS template-literal coercion of a metadata value to a string
(arrays stringify as their comma-joined elements). -/
def metaToString : MetaValue → List Char
  | .str s => s
  | .list l => joinCommas l

/-- `category.charAt(0).toUpperCase() + category.slice(1)`. -/
def capitalizeFirst (s : List Char) : List Char :=
  match s with
  | [] => []
  | c :: rest => c.toUpper :: rest

/-- Stable sort by a JS comparator (V8 `Array.prototype.sort` is
stable): insertion keeps the original order of elements the comparator
does not order strictly. -/
def stableInsert (le : ProcessedFile → ProcessedFile → Bool)
    (x : ProcessedFile) : List ProcessedFile → List ProcessedFile
  | [] => [x]
  | y :: rest => if le y x then y :: stableInsert le x rest else x :: y :: rest

/-- Stable insertion sort (models `[...categoryFiles].sort(cmp)`). -/
def stableSort (le : ProcessedFile → ProcessedFile → Bool) :
    List ProcessedFile → List ProcessedFile
  | [] => []
  | x :: rest => stableInsert le x (stableSort le rest)

/-- One `- [title](url)` line, with optional `: description`. -/
def renderFileLine (baseUrl : List Char) (f : ProcessedFile) : List Char :=
  let url := baseUrl ++ f.url
  let line := cs "- [" ++ metaToString f.title ++ cs "](" ++ url ++ cs ")"
  let line :=
    match f.description with
    | some d => if jsTruthy d then line ++ cs ": " ++ metaToString d else line
    | none => line
  line ++ cs "\n"

/-- One `## Category` block with its title-sorted entries.
`localeCompare` is environment-dependent and enters as the comparator
parameter `le` (`le a b` models `a.title.localeCompare(b.title) <= 0`). -/
def renderCategory (le : ProcessedFile → ProcessedFile → Bool)
    (baseUrl : List Char) (g : List Char × List ProcessedFile) : List Char :=
  cs "## " ++ capitalizeFirst g.1 ++ cs "\n\n" ++
    ((stableSort le g.2).map (renderFileLine baseUrl)).flatten ++ cs "\n"

/-- The fixed heading block of `llms.txt`. -/
def llmsHeading (projectName projectDescription : List Char) : List Char :=
  cs "# " ++ projectName ++ cs "\n\n" ++
  cs "> " ++ projectDescription ++ cs "\n\n" ++
  cs "This website contains technical content including blog posts, research articles, and application descriptions. " ++
  cs "All content is available in markdown format for easy consumption by language models.\n\n" ++
  cs "## Content Structure\n\n" ++
  cs "- **Blog Posts**: Technical tutorials and guides\n" ++
  cs "- **Research Articles**: Academic and research content\n" ++
  cs "- **Apps**: Application descriptions and documentation\n\n"

/-- Rendering options of `generateLLMsTxt` (defaults applied by `||`). -/
structure RenderOptions where
  projectName : Option (List Char)
  projectDescription : Option (List Char)
  baseUrl : Option (List Char)

/-- `generateLLMsTxt`: group by category, render, and write `llms.txt`
(the write is recorded as an `FsOp`). -/
def generateLLMsTxt (le : ProcessedFile → ProcessedFile → Bool)
    (files : List ProcessedFile) (outputDir : List Char)
    (options : RenderOptions) : List FsOp :=
  let projectName := match options.projectName with
    | some s => if s ≠ [] then s else cs "Personal Website & Blog"
    | none => cs "Personal Website & Blog"
  let projectDescription := match options.projectDescription with
    | some s => if s ≠ [] then s
        else cs "A collection of blog posts, research articles, and app descriptions covering software development, algorithms, and technical tutorials."
    | none => cs "A collection of blog posts, research articles, and app descriptions covering software development, algorithms, and technical tutorials."
  let baseUrl := match options.baseUrl with
    | some s => if s ≠ [] then s else []
    | none => []
  let filesByCategory := groupByCategory files
  let llmsTxt := llmsHeading projectName projectDescription ++
    (filesByCategory.map (renderCategory le baseUrl)).flatten
  [FsOp.writeFile (joinList [outputDir, cs "llms.txt"]) llmsTxt]

/-- `GenerateOptions` of the orchestrator. -/
structure GenerateOptions where
  contentDir : List Char
  outputDir : List Char
  baseUrl : Option (List Char)
  projectName : Option (List Char)
  projectDescription : Option (List Char)

/-- `generateLlmsFiles`: resolve both directories against the process
working directory, fail fast when the content directory does not exist
(before any filesystem mutation), otherwise ensure the output
structure and run discovery plus index generation.  `fsExists` models
`fs.existsSync` on the initial filesystem; `sources` is the glob
collaborator's answer; `le` the locale comparator. -/
def generateLlmsFiles (cwd : List Char) (fsExists : List Char → Bool)
    (le : ProcessedFile → ProcessedFile → Bool)
    (sources : List (List Char × List Char)) (options : GenerateOptions) :
    Except (List Char) (List ProcessedFile × List FsOp) :=
  let contentDir := posixResolve cwd options.contentDir
  let outputDir := posixResolve cwd options.outputDir
  if !fsExists contentDir then
    .error (cs "Content directory not found: " ++ contentDir)
  else
    let ops0 := [FsOp.ensureDir outputDir,
                 FsOp.ensureDir (joinList [outputDir, cs "md"])]
    let discovered := discoverFiles contentDir outputDir sources
    let ops1 := generateLLMsTxt le discovered.1 outputDir
      { projectName := options.projectName
        projectDescription := options.projectDescription
        baseUrl := options.baseUrl }
    .ok (discovered.1, ops0 ++ discovered.2 ++ ops1)

/-- A clean path segment: non-empty and not a dot-segment. -/
def cleanSeg (seg : List Char) : Bool :=
  seg ≠ [] && seg ≠ cs "." && seg ≠ cs ".."

/-- Well-formed relative path, as produced by the glob collaborator:
non-empty, no leading/trailing/duplicate separator and no `.`/`..`
segments. -/
def WellFormedRel (p : List Char) : Bool :=
  p ≠ [] && (splitSlash p).all cleanSeg

/-! ## Helper lemmas: category grouping -/

theorem groupAdd_cons_ne (g : List Char × List ProcessedFile)
    (m : List (List Char × List ProcessedFile)) (f : ProcessedFile)
    (h : g.1 ≠ f.category) : groupAdd (g :: m) f = g :: groupAdd m f := by
  unfold groupAdd
  simp only [List.any_cons, decide_eq_true_eq, h, decide_False, Bool.false_or]
  split
  · simp [List.map_cons, h]
  · simp

theorem groupAdd_cons_eq (g : List Char × List ProcessedFile)
    (m : List (List Char × List ProcessedFile)) (f : ProcessedFile)
    (h : g.1 = f.category) (h2 : ∀ g' ∈ m, g'.1 ≠ f.category) :
    groupAdd (g :: m) f = (g.1, g.2 ++ [f]) :: m := by
  unfold groupAdd
  simp only [List.any_cons, decide_eq_true_eq, h, decide_True, Bool.true_or,
    if_true, List.map_cons, if_pos h]
  congr 1
  have heach : ∀ g' ∈ m,
      (if g'.1 = f.category then (g'.1, g'.2 ++ [f]) else g') = id g' := by
    intro g' hg'
    simp [h2 g' hg']
  rw [List.map_congr_left heach, List.map_id]

theorem groupAdd_not_mem (m : List (List Char × List ProcessedFile))
    (f : ProcessedFile) (h : ∀ g ∈ m, g.1 ≠ f.category) :
    groupAdd m f = m ++ [(f.category, [f])] := by
  unfold groupAdd
  have : m.any (fun g => g.1 = f.category) = false := by
    simp only [List.any_eq_false, decide_eq_true_eq]
    exact h
  simp [this]

theorem keys_groupAdd (m : List (List Char × List ProcessedFile))
    (f : ProcessedFile) (h : (m.map Prod.fst).Nodup) :
    ((groupAdd m f).map Prod.fst).Nodup := by
  unfold groupAdd
  split
  · have : ((m.map (fun g =>
        if g.1 = f.category then (g.1, g.2 ++ [f]) else g)).map Prod.fst) =
        m.map Prod.fst := by
      rw [List.map_map]
      apply List.map_congr_left
      intro g _
      by_cases hg : g.1 = f.category <;> simp [hg]
    rw [this]; exact h
  · rename_i hany
    have hnm : ∀ g ∈ m, g.1 ≠ f.category := by
      intro g hg hEq
      exact hany (List.any_eq_true.mpr ⟨g, hg, by simp [hEq]⟩)
    rw [List.map_append]
    simp only [List.map_cons, List.map_nil]
    rw [List.nodup_append]
    refine ⟨h, List.nodup_singleton _, ?_⟩
    intro a ha hb
    simp only [List.mem_singleton] at hb
    subst hb
    obtain ⟨g, hg, hg1⟩ := List.mem_map.mp ha
    exact hnm g hg hg1

theorem join_groupAdd (m : List (List Char × List ProcessedFile))
    (f : ProcessedFile) (h : (m.map Prod.fst).Nodup) :
    (((groupAdd m f).map (fun g => g.2)).flatten).Perm
      ((m.map (fun g => g.2)).flatten ++ [f]) := by
  induction m with
  | nil =>
    rw [groupAdd_not_mem [] f (by intro g hg; cases hg)]
    simp
  | cons g rest ih =>
    simp only [List.map_cons, List.nodup_cons] at h
    by_cases hg : g.1 = f.category
    · have hrest : ∀ g' ∈ rest, g'.1 ≠ f.category := by
        intro g' hg' hEq
        exact h.1 (List.mem_map.mpr ⟨g', hg', by rw [hEq, ← hg]⟩)
      rw [groupAdd_cons_eq g rest f hg hrest]
      simp only [List.map_cons, List.flatten_cons]
      rw [List.append_assoc g.2 [f], List.append_assoc g.2]
      exact List.Perm.append_left g.2 List.perm_append_comm
    · rw [groupAdd_cons_ne g rest f hg]
      simp only [List.map_cons, List.flatten_cons]
      rw [List.append_assoc g.2]
      exact List.Perm.append_left g.2 (ih h.2)

theorem cat_groupAdd (m : List (List Char × List ProcessedFile))
    (f : ProcessedFile)
    (h : ∀ g ∈ m, ∀ x ∈ g.2, x.category = g.1) :
    ∀ g ∈ groupAdd m f, ∀ x ∈ g.2, x.category = g.1 := by
  unfold groupAdd
  split
  · intro g hg x hx
    obtain ⟨g0, hg0, rfl⟩ := List.mem_map.mp hg
    by_cases hc : g0.1 = f.category
    · rw [if_pos hc] at hx ⊢
      rcases List.mem_append.mp hx with hx' | hx'
      · exact h g0 hg0 x hx'
      · simp only [List.mem_singleton] at hx'
        subst hx'
        exact hc.symm
    · rw [if_neg hc] at hx ⊢
      exact h g0 hg0 x hx
  · intro g hg x hx
    rcases List.mem_append.mp hg with hg' | hg'
    · exact h g hg' x hx
    · simp only [List.mem_singleton] at hg'
      subst hg'
      simp only [List.mem_singleton] at hx
      subst hx
      rfl

theorem groupBy_foldl_invariant (files : List ProcessedFile) :
    ∀ acc : List (List Char × List ProcessedFile),
      (acc.map Prod.fst).Nodup →
      ((files.foldl groupAdd acc).map Prod.fst).Nodup ∧
      (((files.foldl groupAdd acc).map (fun g => g.2)).flatten).Perm
        ((acc.map (fun g => g.2)).flatten ++ files) := by
  induction files with
  | nil => intro acc h; exact ⟨h, by simp⟩
  | cons f rest ih =>
    intro acc h
    rw [List.foldl_cons]
    obtain ⟨h1, h2⟩ := ih (groupAdd acc f) (keys_groupAdd acc f h)
    refine ⟨h1, ?_⟩
    have h3 := h2.trans ((join_groupAdd acc f h).append_right rest)
    simpa using h3

theorem cat_groupBy_foldl (files : List ProcessedFile) :
    ∀ acc : List (List Char × List ProcessedFile),
      (∀ g ∈ acc, ∀ x ∈ g.2, x.category = g.1) →
      ∀ g ∈ files.foldl groupAdd acc, ∀ x ∈ g.2, x.category = g.1 := by
  induction files with
  | nil => intro acc h; exact h
  | cons f rest ih =>
    intro acc h
    rw [List.foldl_cons]
    exact ih (groupAdd acc f) (cat_groupAdd acc f h)

/-! ## Claim theorems -/

/-- C8: for every manifest, the category grouping of the index
generator is a partition — the groups' members are exactly the
manifest entries (as a permutation, hence each entry appears exactly
once across the groups), the total size equals the manifest length,
every member sits in the group named by its own category, and the
group keys are pairwise distinct. -/
theorem c8_grouping_partition (files : List ProcessedFile) :
    (((groupByCategory files).map (fun g => g.2)).flatten).Perm files ∧
    ((groupByCategory files).map (fun g => g.2.length)).sum = files.length ∧
    (∀ g ∈ groupByCategory files, ∀ f ∈ g.2, f.category = g.1) ∧
    ((groupByCategory files).map Prod.fst).Nodup := by
  obtain ⟨h1, h2⟩ := groupBy_foldl_invariant files [] (by simp)
  have hperm : (((groupByCategory files).map (fun g => g.2)).flatten).Perm
      files := by
    unfold groupByCategory
    simpa using h2
  refine ⟨hperm, ?_, ?_, ?_⟩
  · have hl := hperm.length_eq
    rw [List.length_flatten, List.map_map] at hl
    exact hl
  · exact cat_groupBy_foldl files [] (by intro g hg; cases hg)
  · unfold groupByCategory
    exact h1

/-- C8 witness: the partition facts at a concrete three-entry
manifest. -/
theorem c8_grouping_witness :
    (((groupByCategory
      [{ relativePath := cs "posts/a.md", url := cs "/md/posts/a.md",
         title := .str (cs "A"), description := none, category := cs "posts" },
       { relativePath := cs "apps/b.md", url := cs "/md/apps/b.md",
         title := .str (cs "B"), description := none, category := cs "apps" },
       { relativePath := cs "posts/c.md", url := cs "/md/posts/c.md",
         title := .str (cs "C"), description := none, category := cs "posts" }]
      ).map (fun g => g.2)).flatten).Perm
      [{ relativePath := cs "posts/a.md", url := cs "/md/posts/a.md",
         title := .str (cs "A"), description := none, category := cs "posts" },
       { relativePath := cs "apps/b.md", url := cs "/md/apps/b.md",
         title := .str (cs "B"), description := none, category := cs "apps" },
       { relativePath := cs "posts/c.md", url := cs "/md/posts/c.md",
         title := .str (cs "C"), description := none, category := cs "posts" }] :=
  (c8_grouping_partition
      [{ relativePath := cs "posts/a.md", url := cs "/md/posts/a.md",
         title := .str (cs "A"), description := none, category := cs "posts" },
       { relativePath := cs "apps/b.md", url := cs "/md/apps/b.md",
         title := .str (cs "B"), description := none, category := cs "apps" },
       { relativePath := cs "posts/c.md", url := cs "/md/posts/c.md",
         title := .str (cs "C"), description := none, category := cs "posts" }]).1

/-- C9: when the resolved content directory does not exist, the
orchestrator fails with the configuration error before recording any
filesystem operation. -/
theorem c9_fail_fast (cwd : List Char) (fsExists : List Char → Bool)
    (le : ProcessedFile → ProcessedFile → Bool)
    (sources : List (List Char × List Char)) (options : GenerateOptions)
    (h : fsExists (posixResolve cwd options.contentDir) = false) :
    generateLlmsFiles cwd fsExists le sources options =
      .error (cs "Content directory not found: " ++
        posixResolve cwd options.contentDir) := by
  unfold generateLlmsFiles
  simp [h]

/-- C9 witness: concrete failing configuration. -/
theorem c9_fail_fast_witness :
    generateLlmsFiles (cs "/app") (fun _ => false) (fun _ _ => true) []
      { contentDir := cs "content", outputDir := cs "out",
        baseUrl := none, projectName := none, projectDescription := none } =
      .error (cs "Content directory not found: " ++
        posixResolve (cs "/app") (cs "content")) :=
  c9_fail_fast (cs "/app") (fun _ => false) (fun _ _ => true) [] _ rfl

/-- C2 (code bug evidence): a root-level `index.md` is not left as-is —
`path.dirname` returns `"."`, which is truthy, so the filename is
replaced by `"."` and the output path becomes the junk name `"..md"`
(likewise for `_index.md`), and the manifest records the URL
`/md/..md`. -/
theorem c2_root_index_urlpath :
    urlPathOf (cs "index.md") = cs "..md" ∧
    urlPathOf (cs "_index.md") = cs "..md" ∧
    (discoverFiles (cs "/c") (cs "/o") [(cs "index.md", cs "hello")]).1.map
      (fun e => e.url) = [cs "/md/..md"] := by decide

/-! ## Helper lemmas: metadata association lists -/

theorem setKey_mem (md : FileMetadata) (k : List Char) (v : MetaValue)
    (kv : List Char × MetaValue) (h : kv ∈ setKey md k v) :
    kv = (k, v) ∨ kv ∈ md := by
  induction md with
  | nil =>
    unfold setKey at h
    simp only [List.mem_singleton] at h
    exact Or.inl h
  | cons hd rest ih =>
    unfold setKey at h
    by_cases hk : hd.1 = k
    · rw [if_pos hk] at h
      rcases List.mem_cons.mp h with h' | h'
      · subst h'
        exact Or.inl (by rw [hk])
      · exact Or.inr (List.mem_cons_of_mem hd h')
    · rw [if_neg hk] at h
      rcases List.mem_cons.mp h with h' | h'
      · subst h'
        exact Or.inr (List.mem_cons_self hd rest)
      · rcases ih h' with h'' | h''
        · exact Or.inl h''
        · exact Or.inr (List.mem_cons_of_mem hd h'')

theorem lookupMeta_mem (md : FileMetadata) (k : List Char) (v : MetaValue)
    (h : lookupMeta md k = some v) : (k, v) ∈ md := by
  induction md with
  | nil => cases h
  | cons hd rest ih =>
    unfold lookupMeta at h
    by_cases hk : hd.1 = k
    · rw [if_pos hk] at h
      have hv : hd.2 = v := by injection h
      have heq : hd = (k, v) := Prod.ext hk hv
      rw [← heq]
      exact List.mem_cons_self hd rest
    · rw [if_neg hk] at h
      exact List.mem_cons_of_mem hd (ih h)

/-- Every value stored by the plain-Markdown frontmatter parser is a
string (the fold only ever inserts `mdLineValue` results). -/
theorem parseFrontmatter_md_values (fm : List Char)
    (kv : List Char × MetaValue)
    (h : kv ∈ parseFrontmatter mdLineValue fm) : ∃ s, kv.2 = .str s := by
  have main : ∀ (lines : List (List Char)) (acc : FileMetadata),
      (∀ kv' ∈ acc, ∃ s, kv'.2 = MetaValue.str s) →
      ∀ kv' ∈ lines.foldl
        (fun md line =>
          match matchKeyValLine line with
          | some (key, raw) => setKey md key (mdLineValue raw)
          | none => md) acc, ∃ s, kv'.2 = MetaValue.str s := by
    intro lines
    induction lines with
    | nil => intro acc hacc kv' h'; exact hacc kv' h'
    | cons line rest ih =>
      intro acc hacc kv' h'
      rw [List.foldl_cons] at h'
      refine ih _ ?_ kv' h'
      intro kv'' h''
      cases hline : matchKeyValLine line with
      | none =>
        rw [hline] at h''
        exact hacc kv'' h''
      | some kr =>
        obtain ⟨key, raw⟩ := kr
        rw [hline] at h''
        rcases setKey_mem _ _ _ _ h'' with rfl | h3
        · exact ⟨_, rfl⟩
        · exact hacc kv'' h3
  unfold parseFrontmatter at h
  exact main (splitNl fm) [] (by intro kv' h''; cases h'') kv h

/-- C4 counterexample: on the same frontmatter block, `processMDFile`
stores `tags: [a, b]` as the plain string `"[a, b]"` while
`processMDXFile` splits it into the sequence — the bracket handling is
not shared between the dialects, contrary to the claim. -/
theorem c4_tags_counterexample :
    (processMDFile (cs "---\ntags: [a, b]\n---\nbody")).metadata =
      [(cs "tags", .str (cs "[a, b]"))] ∧
    (processMDXFile (cs "---\ntags: [a, b]\n---\nbody")).metadata =
      [(cs "tags", .list [cs "a", cs "b"])] := by decide

/-- C4 amended: the block-header `key: value` parsing (trim, one layer
of surrounding quotes stripped) is shared, but the bracket-to-sequence
splitting happens only in `processMDXFile`; `processMDFile` stores
every value as a plain string, so `tags: [a, b]` yields the string
`"[a, b]"` there and the sequence `["a","b"]` only in the extended
dialect. -/
theorem c4_block_header_amended :
    (∀ content k v,
      lookupMeta (processMDFile content).metadata k = some v →
      ∃ s, v = MetaValue.str s) ∧
    mdxLineValue (cs " [a, b]") = .list [cs "a", cs "b"] ∧
    mdLineValue (cs " [a, b]") = .str (cs "[a, b]") := by
  refine ⟨?_, by decide, by decide⟩
  intro content k v h
  have hmem := lookupMeta_mem _ _ _ h
  unfold processMDFile at hmem
  cases hfm : matchFrontmatter content with
  | none =>
    rw [hfm] at hmem
    simp only at hmem
    cases hmem
  | some pr =>
    obtain ⟨fm, rest⟩ := pr
    rw [hfm] at hmem
    dsimp only at hmem
    by_cases hne : fm ≠ []
    · rw [if_pos hne] at hmem
      have := parseFrontmatter_md_values fm (k, v) hmem
      simpa using this
    · rw [if_neg hne] at hmem
      simp only at hmem
      cases hmem

/-- C4 witness: the amended universal statement applied to the concrete
tags example. -/
theorem c4_tags_witness :
    ∃ s, MetaValue.str (cs "[a, b]") = MetaValue.str s :=
  c4_block_header_amended.1 (cs "---\ntags: [a, b]\n---\nbody") (cs "tags")
    (.str (cs "[a, b]")) (by decide)

/-- C1 counterexample: a file at the content root gets its own filename
as category (`parts[0]` is the filename, which is truthy), not
`"other"` as the claim states. -/
theorem c1_category_counterexample :
    (discoverFiles (cs "/c") (cs "/o") [(cs "b.md", cs "hello")]).1.map
      (fun e => e.category) = [cs "b.md"] ∧
    cs "b.md" ≠ cs "other" := by decide

/-- C1 amended: every manifest entry's category is the first
`path.sep`-segment of its relative path, with `"other"` only when that
first segment is empty (empty path or path starting with a separator);
a root-level file therefore gets its own filename as category. -/
theorem c1_category_amended (contentDir outputDir : List Char)
    (sources : List (List Char × List Char)) :
    ∀ e ∈ (discoverFiles contentDir outputDir sources).1,
      e.category = categoryOf e.relativePath := by
  induction sources with
  | nil =>
    intro e he
    simp only [discoverFiles] at he
    cases he
  | cons src rest ih =>
    intro e he
    obtain ⟨file, raw⟩ := src
    rw [discoverFiles] at he
    rcases List.mem_cons.mp he with rfl | h'
    · rfl
    · exact ih e h'

/-- C1 witness: the amended statement at a concrete nested path. -/
theorem c1_category_witness :
    ((discoverFiles (cs "/c") (cs "/o")
        [(cs "posts/a.md", cs "x")]).1.headD
      { relativePath := [], url := [], title := .str [],
        description := none, category := [] }).category =
    categoryOf ((discoverFiles (cs "/c") (cs "/o")
        [(cs "posts/a.md", cs "x")]).1.headD
      { relativePath := [], url := [], title := .str [],
        description := none, category := [] }).relativePath :=
  c1_category_amended (cs "/c") (cs "/o") [(cs "posts/a.md", cs "x")] _
    (by decide)

/-- C3 counterexample: `extractTitle` can return the empty string — a
body whose first heading match has whitespace-only text yields
`h1Match[1]?.trim() || ''` = `""`; a degenerate path with no heading
yields an empty filename fallback; and a (parser-producible) array
title is returned unchanged, not as a string. -/
theorem c3_title_counterexample :
    extractTitle (cs "post.md") [] (cs "#  ") = .str [] ∧
    extractTitle (cs "/") [] [] = .str [] ∧
    extractTitle (cs "post.md") [(cs "title", .list [cs "x"])] [] =
      .list [cs "x"] := by decide

/-- C3 amended: `extractTitle` returns a non-empty string provided the
metadata title (when present and truthy) is a string, the body's first
heading match (if any) has non-whitespace text, and the filename
fallback is non-empty; when the first heading's text is
whitespace-only it returns the empty string instead. -/
theorem c3_title_amended (filePath : List Char) (metadata : FileMetadata)
    (content : List Char)
    (hTitle : ∀ v, lookupMeta metadata (cs "title") = some v →
      jsTruthy v = true → ∃ s, v = MetaValue.str s)
    (hH1 : ∀ t, firstH1 content = some t → jsTrim t ≠ [])
    (hFile : titleFromFilename filePath ≠ []) :
    ∃ s, extractTitle filePath metadata content = .str s ∧ s ≠ [] := by
  unfold extractTitle
  cases hlk : lookupMeta metadata (cs "title") with
  | some v =>
    dsimp only
    cases htv : jsTruthy v with
    | true =>
      obtain ⟨s, rfl⟩ := hTitle v hlk htv
      rw [if_pos rfl]
      refine ⟨s, rfl, ?_⟩
      simpa [jsTruthy] using htv
    | false =>
      rw [if_neg (by simp)]
      cases hh1 : firstH1 content with
      | some t => exact ⟨jsTrim t, rfl, hH1 t hh1⟩
      | none => exact ⟨titleFromFilename filePath, rfl, hFile⟩
  | none =>
    dsimp only
    cases hh1 : firstH1 content with
    | some t => exact ⟨jsTrim t, rfl, hH1 t hh1⟩
    | none => exact ⟨titleFromFilename filePath, rfl, hFile⟩

/-- C3 witness: the amended statement at a concrete file with a real
heading. -/
theorem c3_title_witness :
    ∃ s, extractTitle (cs "content/my-post.md") [] (cs "# Hi\nBody") =
      .str s ∧ s ≠ [] :=
  c3_title_amended (cs "content/my-post.md") [] (cs "# Hi\nBody")
    (by intro v hv _; cases hv)
    (by
      intro t ht
      have hev : firstH1 (cs "# Hi\nBody") = some (cs "Hi") := by decide
      rw [hev] at ht
      injection ht with ht'
      subst ht'
      decide)
    (by decide)

/-- C10 counterexample: a 51-space line matches the paragraph regex and
trims to the empty string, so `extractDescription` returns the empty
string (not absence). -/
theorem c10_empty_description_counterexample :
    extractDescription [] (List.replicate 51 ' ') = some (.str []) := by
  decide

/-- C10 amended: with no (truthy) metadata description, the result is
either absent or a string of at most 200 characters; it can be the
empty string exactly when the matched paragraph text is
whitespace-only. -/
theorem c10_description_amended (metadata : FileMetadata)
    (content : List Char) (h : descMeta metadata = none) :
    extractDescription metadata content = none ∨
    ∃ s, extractDescription metadata content = some (.str s) ∧
      s.length ≤ 200 := by
  unfold extractDescription
  rw [h]
  cases hp : firstParaMatch content with
  | none => exact Or.inl rfl
  | some m =>
    refine Or.inr ⟨_, rfl, ?_⟩
    exact List.length_take_le 200 _

/-- C10 witness: the amended statement at a concrete long body. -/
theorem c10_description_witness :
    extractDescription [] (List.replicate 250 'a') = none ∨
    ∃ s, extractDescription [] (List.replicate 250 'a') = some (.str s) ∧
      s.length ≤ 200 :=
  c10_description_amended [] (List.replicate 250 'a') rfl

/-- Membership through one optional string-field stage of
`extractMetadataValues`. -/
theorem strStage_mem (md : FileMetadata) (o : Option (List Char))
    (key : List Char) (kv : List Char × MetaValue)
    (h : kv ∈ (match o with
      | some t => setKey md key (MetaValue.str t)
      | none => md)) :
    (∃ t, kv = (key, MetaValue.str t)) ∨ kv ∈ md := by
  cases o with
  | none => exact Or.inr h
  | some t =>
    rcases setKey_mem _ _ _ _ h with rfl | h'
    · exact Or.inl ⟨_, rfl⟩
    · exact Or.inr h'

/-- Membership through the tags stage of `extractMetadataValues`. -/
theorem tagsStage_mem (md : FileMetadata) (o : Option (List Char))
    (kv : List Char × MetaValue)
    (h : kv ∈ (match o with
      | some inner =>
        let tags := ((splitOnChar ',' inner).map
          (fun t => removeAllQuotes (jsTrim t))).filter (fun t => t ≠ [])
        if tags ≠ [] then setKey md (cs "tags") (.list tags) else md
      | none => md)) :
    (∃ l, kv = (cs "tags", MetaValue.list l)) ∨ kv ∈ md := by
  cases o with
  | none => exact Or.inr h
  | some inner =>
    dsimp only at h
    split at h
    · rcases setKey_mem _ _ _ _ h with rfl | h'
      · exact Or.inl ⟨_, rfl⟩
      · exact Or.inr h'
    · exact Or.inr h

/-- Every entry of `extractMetadataValues` has one of the four
recognised keys, with `tags` holding a sequence and the others a
string. -/
theorem extractMetadataValues_mem (s : List Char)
    (kv : List Char × MetaValue) (h : kv ∈ extractMetadataValues s) :
    (kv.1 = cs "title" ∨ kv.1 = cs "description" ∨ kv.1 = cs "slug" ∨
      kv.1 = cs "tags") ∧
    (kv.1 = cs "tags" → ∃ l, kv.2 = MetaValue.list l) ∧
    (kv.1 ≠ cs "tags" → ∃ t, kv.2 = MetaValue.str t) := by
  unfold extractMetadataValues at h
  rcases tagsStage_mem _ _ _ h with ⟨l, rfl⟩ | h
  · exact ⟨Or.inr (Or.inr (Or.inr rfl)), fun _ => ⟨l, rfl⟩,
      fun hne => absurd rfl hne⟩
  rcases strStage_mem _ _ _ _ h with ⟨t, rfl⟩ | h
  · exact ⟨Or.inr (Or.inr (Or.inl rfl)),
      fun htag => absurd (show cs "slug" = cs "tags" from htag) (by decide),
      fun _ => ⟨t, rfl⟩⟩
  rcases strStage_mem _ _ _ _ h with ⟨t, rfl⟩ | h
  · exact ⟨Or.inr (Or.inl rfl),
      fun htag => absurd (show cs "description" = cs "tags" from htag)
        (by decide),
      fun _ => ⟨t, rfl⟩⟩
  rcases strStage_mem _ _ _ _ h with ⟨t, rfl⟩ | h
  · exact ⟨Or.inl rfl,
      fun htag => absurd (show cs "title" = cs "tags" from htag) (by decide),
      fun _ => ⟨t, rfl⟩⟩
  cases h

/-- C5: for an extended-dialect file without a (non-empty) block
header, the embedded-object parser stores at most the four fields
`title`, `description`, `slug` (strings) and `tags` (a sequence);
every other field of the object literal is ignored and never reaches
the metadata mapping. -/
theorem c5_export_fields_only (content : List Char)
    (hnofm : ∀ fm rest, matchFrontmatter content = some (fm, rest) → fm = [])
    (k : List Char) (v : MetaValue)
    (h : lookupMeta (processMDXFile content).metadata k = some v) :
    (k = cs "title" ∨ k = cs "description" ∨ k = cs "slug" ∨
      k = cs "tags") ∧
    (k = cs "tags" → ∃ l, v = MetaValue.list l) ∧
    (k ≠ cs "tags" → ∃ t, v = MetaValue.str t) := by
  have hmem := lookupMeta_mem _ _ _ h
  unfold processMDXFile at hmem
  cases hfm : matchFrontmatter content with
  | some pr =>
    obtain ⟨fm, rest⟩ := pr
    rw [hfm] at hmem
    dsimp only at hmem
    rw [if_neg (by simpa using hnofm fm rest hfm)] at hmem
    cases hexp : exportMetaMatch content with
    | some metadataStr =>
      rw [hexp] at hmem
      exact extractMetadataValues_mem metadataStr (k, v) hmem
    | none =>
      rw [hexp] at hmem
      cases hmem
  | none =>
    rw [hfm] at hmem
    dsimp only at hmem
    cases hexp : exportMetaMatch content with
    | some metadataStr =>
      rw [hexp] at hmem
      exact extractMetadataValues_mem metadataStr (k, v) hmem
    | none =>
      rw [hexp] at hmem
      cases hmem

/-- C5 witness: a concrete export-metadata file with an unknown field
`author`, showing the recognised key `title` classified and implying
the unknown key is never stored. -/
theorem c5_export_fields_witness :
    (cs "title" = cs "title" ∨ cs "title" = cs "description" ∨
      cs "title" = cs "slug" ∨ cs "title" = cs "tags") ∧
    (cs "title" = cs "tags" → ∃ l, MetaValue.str (cs "X") =
      MetaValue.list l) ∧
    (cs "title" ≠ cs "tags" → ∃ t, MetaValue.str (cs "X") =
      MetaValue.str t) :=
  c5_export_fields_only
    (cs "export const metadata = \x7btitle: 'X', author: 'Y'\x7d;\nBody\n")
    (by intro fm rest hfm; cases hfm) (cs "title") (.str (cs "X"))
    (by decide)

/-! ## Helper lemmas: line-level view of the paragraph scanner -/

theorem splitOnChar_ne_nil (sep : Char) (s : List Char) :
    splitOnChar sep s ≠ [] := by
  cases s with
  | nil => simp [splitOnChar]
  | cons c rest =>
    unfold splitOnChar
    by_cases h : c = sep
    · simp [h]
    · rw [if_neg h]
      cases hrec : splitOnChar sep rest <;> simp

theorem splitOnChar_decomp (sep : Char) (s : List Char) :
    splitOnChar sep s = (s.takeWhile (fun c => c ≠ sep)) ::
      (match s.dropWhile (fun c => c ≠ sep) with
        | [] => []
        | _ :: t => splitOnChar sep t) := by
  induction s with
  | nil => simp [splitOnChar]
  | cons c rest ih =>
    by_cases h : c = sep
    · subst h
      simp [splitOnChar, List.takeWhile_cons, List.dropWhile_cons]
    · have hstep : splitOnChar sep (c :: rest) =
          match splitOnChar sep rest with
          | [] => [[c]]
          | g :: gs => (c :: g) :: gs := by
        conv_lhs => unfold splitOnChar
        rw [if_neg h]
      rw [hstep, ih]
      rw [List.takeWhile_cons_of_pos (by simpa using h),
        List.dropWhile_cons_of_pos (by simpa using h)]

theorem splitOnChar_no_sep (sep : Char) (s : List Char) :
    ∀ L ∈ splitOnChar sep s, sep ∉ L := by
  induction s with
  | nil =>
    intro L hL
    simp [splitOnChar] at hL
    simp [hL]
  | cons c rest ih =>
    intro L hL
    unfold splitOnChar at hL
    by_cases h : c = sep
    · rw [if_pos h] at hL
      rcases List.mem_cons.mp hL with rfl | hL'
      · simp
      · exact ih L hL'
    · rw [if_neg h] at hL
      cases hrec : splitOnChar sep rest with
      | nil => exact absurd hrec (splitOnChar_ne_nil sep rest)
      | cons g gs =>
        rw [hrec] at hL
        rcases List.mem_cons.mp hL with rfl | hL'
        · intro hmem
          rcases List.mem_cons.mp hmem with rfl | hmem'
          · exact h rfl
          · exact ih g (hrec ▸ List.mem_cons_self g gs) hmem'
        · exact ih L (hrec ▸ List.mem_cons_of_mem g hL')

/-- Unfolding lemma for one scanner step. -/
theorem firstParaGo_cons (c : Char) (rest : List Char) (atStart : Bool) :
    firstParaGo (c :: rest) atStart =
      if (atStart && c ≠ '\n' && c ≠ '#' &&
          50 ≤ (rest.takeWhile (fun x => x ≠ '\n')).length) then
        some (c :: (rest.takeWhile (fun x => x ≠ '\n')).take 200)
      else firstParaGo rest (c = '\n') := rfl

/-- Walking non-newline characters with the line-start flag down keeps
the paragraph scanner inert. -/
theorem firstParaGo_false_append (xs t : List Char)
    (hxs : ∀ x ∈ xs, x ≠ '\n') :
    firstParaGo (xs ++ t) false = firstParaGo t false := by
  induction xs with
  | nil => rfl
  | cons x xs ih =>
    have hx : x ≠ '\n' := hxs x (List.mem_cons_self x xs)
    rw [List.cons_append, firstParaGo_cons]
    rw [if_neg (by simp)]
    have hdec : (decide (x = '\n')) = false := by simpa using hx
    rw [hdec]
    exact ih (fun y hy => hxs y (List.mem_cons_of_mem x hy))

/-- The qualifying-line predicate of the paragraph regex, at the level
of `split('\n')` lines: non-empty, not starting with `#`, and at least
51 characters long. -/
def qualLine (L : List Char) : Bool :=
  L ≠ [] && L.headD ' ' ≠ '#' && 51 ≤ L.length

theorem length_dropWhile_le {α : Type} (p : α → Bool) (l : List α) :
    (l.dropWhile p).length ≤ l.length := by
  induction l with
  | nil => simp
  | cons a l ih =>
    rw [List.dropWhile_cons]
    split
    · exact Nat.le_succ_of_le ih
    · simp

theorem dropWhile_head_false {α : Type} (p : α → Bool) (l : List α)
    (x : α) (t : List α) (h : l.dropWhile p = x :: t) : p x = false := by
  induction l with
  | nil => cases h
  | cons a l ih =>
    rw [List.dropWhile_cons] at h
    by_cases hp : p a = true
    · rw [if_pos hp] at h
      exact ih h
    · rw [if_neg hp] at h
      cases h
      exact Bool.not_eq_true _ |>.mp hp

/-- The position scanner of the paragraph regex agrees with the
line-level view: it returns the first 201 characters of the first
`split('\n')` line that is non-empty, does not start with `#`, and is
at least 51 characters long. -/
theorem firstParaGo_eq_lines :
    ∀ (n : Nat) (s : List Char), s.length ≤ n →
      firstParaGo s true =
        ((splitNl s).find? qualLine).map (fun L => L.take 201) := by
  intro n
  induction n with
  | zero =>
    intro s hs
    have hnil : s = [] := List.eq_nil_of_length_eq_zero (Nat.le_zero.mp hs)
    subst hnil
    rfl
  | succ n ih =>
    intro s hs
    cases s with
    | nil => rfl
    | cons c rest =>
      rw [firstParaGo_cons]
      by_cases hc : c = '\n'
      · subst hc
        rw [if_neg (by simp)]
        have hflag : (decide (('\n' : Char) = '\n')) = true := by simp
        rw [hflag]
        rw [ih rest (by simp only [List.length_cons] at hs; omega)]
        have hsplit : splitNl ('\n' :: rest) = [] :: splitNl rest := by
          show splitOnChar '\n' ('\n' :: rest) = [] :: splitOnChar '\n' rest
          conv_lhs => unfold splitOnChar
          rw [if_pos rfl]
        rw [hsplit, List.find?_cons_of_neg _ (by simp [qualLine])]
      · have hsplit : splitNl (c :: rest) =
            (c :: rest.takeWhile (fun x => x ≠ '\n')) ::
              (match rest.dropWhile (fun x => x ≠ '\n') with
                | [] => []
                | _ :: t => splitOnChar '\n' t) := by
          unfold splitNl
          rw [splitOnChar_decomp]
          rw [List.takeWhile_cons_of_pos (by simpa using hc),
            List.dropWhile_cons_of_pos (by simpa using hc)]
        by_cases hq : c ≠ '#' ∧
            50 ≤ (rest.takeWhile (fun x => x ≠ '\n')).length
        · rw [if_pos (by
            have h1 : (decide (c ≠ '\n')) = true := by simpa using hc
            have h2 : (decide (c ≠ '#')) = true := by simpa using hq.1
            have h3 : (decide (50 ≤ (rest.takeWhile
                (fun x => x ≠ '\n')).length)) = true := decide_eq_true hq.2
            rw [h1, h2, h3]
            rfl)]
          rw [hsplit]
          rw [List.find?_cons_of_pos _ (by
            simp only [qualLine, Bool.and_eq_true, decide_eq_true_eq,
              List.headD_cons]
            refine ⟨⟨by simp, hq.1⟩, ?_⟩
            simp only [List.length_cons]
            omega)]
          simp [List.take_succ_cons]
        · rw [if_neg (by
            simp only [Bool.and_eq_true, true_and, decide_eq_true_eq]
            intro hcontra
            exact hq ⟨hcontra.1.2, hcontra.2⟩)]
          have hflag : (decide (c = '\n')) = false := by simpa using hc
          rw [hflag]
          conv_lhs =>
            rw [(List.takeWhile_append_dropWhile
              (fun x => decide (x ≠ '\n')) rest).symm]
          rw [firstParaGo_false_append _ _
            (fun x hx => by simpa using List.mem_takeWhile_imp hx)]
          rw [hsplit]
          rw [List.find?_cons_of_neg _ (by
            simp only [qualLine, Bool.and_eq_true, decide_eq_true_eq,
              List.headD_cons]
            intro hcontra
            obtain ⟨⟨hne, hhead⟩, hlen⟩ := hcontra
            apply hq
            refine ⟨hhead, ?_⟩
            simp only [List.length_cons] at hlen
            omega)]
          cases hd : rest.dropWhile (fun x => x ≠ '\n') with
          | nil => rfl
          | cons x t =>
            have hx : x = '\n' := by
              have := dropWhile_head_false _ rest x t hd
              simpa using this
            subst hx
            have hstep : firstParaGo ('\n' :: t) false =
                firstParaGo t true := by
              rw [firstParaGo_cons, if_neg (by simp)]
              simp
            rw [hstep]
            have htlen : t.length ≤ n := by
              have h1 : (rest.dropWhile (fun x => decide (x ≠ '\n'))).length ≤
                  rest.length := length_dropWhile_le _ _
              rw [hd] at h1
              simp only [List.length_cons] at h1 hs
              omega
            exact ih t htlen

theorem mem_dropWhile_sub {α : Type} (p : α → Bool) (l : List α) :
    ∀ x ∈ l.dropWhile p, x ∈ l := by
  induction l with
  | nil => simp
  | cons a l ih =>
    intro x hx
    rw [List.dropWhile_cons] at hx
    split at hx
    · exact List.mem_cons_of_mem a (ih x hx)
    · exact hx

theorem mem_jsTrim (s : List Char) : ∀ x ∈ jsTrim s, x ∈ s := by
  intro x hx
  unfold jsTrim at hx
  rw [List.mem_reverse] at hx
  have hx2 := mem_dropWhile_sub _ _ x hx
  rw [List.mem_reverse] at hx2
  exact mem_dropWhile_sub _ _ x hx2

theorem replaceNlSpace_of_no_nl (s : List Char) (h : ('\n') ∉ s) :
    replaceNlSpace s = s := by
  unfold replaceNlSpace
  have heach : ∀ c ∈ s, (if c = '\n' then ' ' else c) = id c := by
    intro c hc
    rw [if_neg]
    · rfl
    · rintro rfl
      exact h hc
  rw [List.map_congr_left heach, List.map_id]

/-- C6 counterexample: a 50-character line (inside the claim's 50–200
window) yields no description, while a 250-character line (outside the
window) yields one, truncated to 200 — the body rule is "length at
least 51, capture the first 201 characters", not "length between 50
and 200". -/
theorem c6_description_counterexample :
    extractDescription [] (List.replicate 50 'a') = none ∧
    extractDescription [] (List.replicate 250 'a') =
      some (.str (List.replicate 200 'a')) := by decide

/-- C6 amended: with no truthy metadata description, the result is the
first line that is non-empty, does not start with `#`, and has length
at least 51 — captured as the line's first 201 characters, trimmed
and truncated to 200 — and is absent when no such line exists. -/
theorem c6_description_amended (metadata : FileMetadata)
    (content : List Char) (h : descMeta metadata = none) :
    extractDescription metadata content =
      ((splitNl content).find? qualLine).map
        (fun L => MetaValue.str ((jsTrim (L.take 201)).take 200)) := by
  unfold extractDescription
  rw [h]
  unfold firstParaMatch
  rw [firstParaGo_eq_lines content.length content (Nat.le_refl _)]
  cases hf : (splitNl content).find? qualLine with
  | none => rfl
  | some L =>
    simp only [Option.map_some']
    have hLnl : ('\n') ∉ L := by
      have hmem := List.mem_of_find?_eq_some hf
      exact splitOnChar_no_sep '\n' content L hmem
    have hm : ('\n') ∉ jsTrim (L.take 201) := by
      intro hmem
      exact hLnl (List.take_subset 201 L (mem_jsTrim _ _ hmem))
    rw [replaceNlSpace_of_no_nl _ hm]

/-- C6 witness: the amended statement at a concrete long body. -/
theorem c6_description_witness :
    extractDescription [] (List.replicate 250 'a') =
      ((splitNl (List.replicate 250 'a')).find? qualLine).map
        (fun L => MetaValue.str ((jsTrim (L.take 201)).take 200)) :=
  c6_description_amended [] (List.replicate 250 'a') rfl

/-! ## Helper lemmas: path normalization (C7) -/

theorem endsWith_iff (s suf : List Char) :
    endsWith s suf = true ↔ ∃ t, s = t ++ suf := by
  unfold endsWith
  rw [List.isSuffixOf_iff_suffix]
  constructor
  · rintro ⟨t, rfl⟩
    exact ⟨t, rfl⟩
  · rintro ⟨t, rfl⟩
    exact ⟨t, rfl⟩

theorem dropSuffix_append (a b : List Char) :
    dropSuffix (a ++ b) b = a := by
  unfold dropSuffix
  rw [List.length_append, Nat.add_sub_cancel]
  exact List.take_left a b

theorem endsWith_append (a b : List Char) :
    endsWith (a ++ b) b = true :=
  (endsWith_iff _ _).mpr ⟨a, rfl⟩

theorem getLast?_of_endsWith (s suf : List Char) (hne : suf ≠ [])
    (h : endsWith s suf = true) : s.getLast? = suf.getLast? := by
  obtain ⟨t, rfl⟩ := (endsWith_iff s suf).mp h
  exact List.getLast?_append_of_ne_nil t hne

/-- A string ending in `".md"` cannot also end in `".mdx"` (their last
characters differ). -/
theorem not_endsWith_mdx_of_endsWith_md (s : List Char)
    (h : endsWith s (cs ".md") = true) :
    endsWith s (cs ".mdx") = false := by
  cases hx : endsWith s (cs ".mdx") with
  | false => rfl
  | true =>
    have h1 := getLast?_of_endsWith s (cs ".md") (by decide) h
    have h2 := getLast?_of_endsWith s (cs ".mdx") (by decide) hx
    rw [h1] at h2
    cases h2

/-- Suffix transitivity for `endsWith` via concrete inclusion:
ending in `".en.mdx"` or `".ru.mdx"` implies ending in `".mdx"`. -/
theorem endsWith_mdx_of_endsWith_locale_mdx (s : List Char) (loc : List Char)
    (hloc : ∃ u, loc = u ++ cs ".mdx")
    (h : endsWith s loc = true) : endsWith s (cs ".mdx") = true := by
  obtain ⟨u, rfl⟩ := hloc
  obtain ⟨t, rfl⟩ := (endsWith_iff _ _).mp h
  rw [← List.append_assoc]
  exact endsWith_append _ _

/-- `rewriteExtToMd` is the identity on strings already ending in
`".md"`. -/
theorem rewriteExtToMd_of_md (p : List Char)
    (h : endsWith p (cs ".md") = true) : rewriteExtToMd p = p := by
  unfold rewriteExtToMd
  rw [not_endsWith_mdx_of_endsWith_md p h]
  simp only [Bool.false_eq_true, if_false, h, if_true]
  obtain ⟨t, rfl⟩ := (endsWith_iff _ _).mp h
  rw [dropSuffix_append]

/-- The extension-rewrite output never ends in `".mdx"`. -/
theorem rewriteExtToMd_not_mdx (p : List Char) :
    endsWith (rewriteExtToMd p) (cs ".mdx") = false := by
  unfold rewriteExtToMd
  by_cases h1 : endsWith p (cs ".mdx") = true
  · rw [if_pos h1]
    exact not_endsWith_mdx_of_endsWith_md _ (endsWith_append _ _)
  · rw [if_neg h1]
    by_cases h2 : endsWith p (cs ".md") = true
    · rw [if_pos h2]
      exact not_endsWith_mdx_of_endsWith_md _ (endsWith_append _ _)
    · rw [if_neg h2]
      exact Bool.not_eq_true _ |>.mp h1

/-- `stripLocaleSuffix` is the identity when the input ends neither in
a locale-`md` suffix nor in `".mdx"`. -/
theorem stripLocaleSuffix_id (q : List Char)
    (hmdx : endsWith q (cs ".mdx") = false)
    (hen : endsWith q (cs ".en.md") = false)
    (hru : endsWith q (cs ".ru.md") = false) :
    stripLocaleSuffix q = q := by
  unfold stripLocaleSuffix
  have h1 : endsWith q (cs ".en.mdx") = false := by
    cases hx : endsWith q (cs ".en.mdx") with
    | false => rfl
    | true =>
      rw [endsWith_mdx_of_endsWith_locale_mdx q (cs ".en.mdx")
        ⟨cs ".en", by decide⟩ hx] at hmdx
      cases hmdx
  have h2 : endsWith q (cs ".ru.mdx") = false := by
    cases hx : endsWith q (cs ".ru.mdx") with
    | false => rfl
    | true =>
      rw [endsWith_mdx_of_endsWith_locale_mdx q (cs ".ru.mdx")
        ⟨cs ".ru", by decide⟩ hx] at hmdx
      cases hmdx
  rw [h1, h2, hen, hru]
  simp

theorem splitOnChar_not_mem (sep : Char) (a : List Char) (ha : sep ∉ a) :
    splitOnChar sep a = [a] := by
  induction a with
  | nil => rfl
  | cons c rest ih =>
    have hc : ¬c = sep := by
      intro h
      exact ha (h ▸ List.mem_cons_self c rest)
    have hstep : splitOnChar sep (c :: rest) =
        match splitOnChar sep rest with
        | [] => [[c]]
        | g :: gs => (c :: g) :: gs := by
      conv_lhs => unfold splitOnChar
      rw [if_neg hc]
    rw [hstep, ih (fun h => ha (List.mem_cons_of_mem c h))]

theorem splitOnChar_append_sep (sep : Char) (a b : List Char)
    (ha : sep ∉ a) :
    splitOnChar sep (a ++ sep :: b) = a :: splitOnChar sep b := by
  induction a with
  | nil =>
    show splitOnChar sep (sep :: b) = [] :: splitOnChar sep b
    conv_lhs => unfold splitOnChar
    rw [if_pos rfl]
  | cons c rest ih =>
    have hc : ¬c = sep := by
      intro h
      exact ha (h ▸ List.mem_cons_self c rest)
    rw [List.cons_append]
    have hstep : splitOnChar sep (c :: (rest ++ sep :: b)) =
        match splitOnChar sep (rest ++ sep :: b) with
        | [] => [[c]]
        | g :: gs => (c :: g) :: gs := by
      conv_lhs => unfold splitOnChar
      rw [if_neg hc]
    rw [hstep, ih (fun h => ha (List.mem_cons_of_mem c h))]

theorem joinSegs_splitSlash (s : List Char) : joinSegs (splitSlash s) = s := by
  induction s with
  | nil => rfl
  | cons c rest ih =>
    unfold splitSlash at ih ⊢
    by_cases hc : c = '/'
    · subst hc
      have hstep : splitOnChar '/' ('/' :: rest) =
          [] :: splitOnChar '/' rest := by
        conv_lhs => unfold splitOnChar
        rw [if_pos rfl]
      rw [hstep]
      cases hsp : splitOnChar '/' rest with
      | nil => exact absurd hsp (splitOnChar_ne_nil '/' rest)
      | cons g gs =>
        rw [hsp] at ih
        show ([] : List Char) ++ '/' :: joinSegs (g :: gs) = '/' :: rest
        rw [List.nil_append, ih]
    · have hstep : splitOnChar '/' (c :: rest) =
          match splitOnChar '/' rest with
          | [] => [[c]]
          | g :: gs => (c :: g) :: gs := by
        conv_lhs => unfold splitOnChar
        rw [if_neg hc]
      rw [hstep]
      cases hsp : splitOnChar '/' rest with
      | nil => exact absurd hsp (splitOnChar_ne_nil '/' rest)
      | cons g gs =>
        rw [hsp] at ih
        cases gs with
        | nil =>
          show c :: g = c :: rest
          rw [show joinSegs [g] = g from rfl] at ih
          rw [ih]
        | cons g2 t =>
          show (c :: g) ++ '/' :: joinSegs (g2 :: t) = c :: rest
          rw [List.cons_append]
          rw [show g ++ '/' :: joinSegs (g2 :: t) =
            joinSegs (g :: g2 :: t) from rfl, ih]

theorem joinSegs_append_singleton (ss : List (List Char)) (b : List Char)
    (h : ss ≠ []) :
    joinSegs (ss ++ [b]) = joinSegs ss ++ '/' :: b := by
  induction ss with
  | nil => exact absurd rfl h
  | cons s rest ih =>
    cases rest with
    | nil => rfl
    | cons r t =>
      show joinSegs (s :: ((r :: t) ++ [b])) = _
      have h1 : joinSegs (s :: ((r :: t) ++ [b])) =
          s ++ '/' :: joinSegs ((r :: t) ++ [b]) := rfl
      rw [h1, ih (by simp)]
      show s ++ '/' :: (joinSegs (r :: t) ++ '/' :: b) =
        (s ++ '/' :: joinSegs (r :: t)) ++ '/' :: b
      rw [List.append_assoc]
      rfl

theorem splitSlash_join_clean (segs : List (List Char)) (h0 : segs ≠ [])
    (h1 : ∀ seg ∈ segs, ('/') ∉ seg) :
    splitSlash (joinSegs segs) = segs := by
  induction segs with
  | nil => exact absurd rfl h0
  | cons s rest ih =>
    cases rest with
    | nil =>
      show splitSlash (joinSegs [s]) = [s]
      exact splitOnChar_not_mem '/' s (h1 s (List.mem_cons_self s []))
    | cons r t =>
      show splitSlash (s ++ '/' :: joinSegs (r :: t)) = _
      unfold splitSlash
      rw [splitOnChar_append_sep '/' s _ (h1 s (List.mem_cons_self s _))]
      have := ih (by simp)
        (fun seg hseg => h1 seg (List.mem_cons_of_mem s hseg))
      unfold splitSlash at this
      rw [this]

theorem joinSegs_ne_nil (segs : List (List Char)) (h0 : segs ≠ [])
    (h1 : ∀ seg ∈ segs, seg ≠ []) : joinSegs segs ≠ [] := by
  cases segs with
  | nil => exact absurd rfl h0
  | cons s rest =>
    cases rest with
    | nil => exact h1 s (List.mem_cons_self s [])
    | cons r t =>
      show s ++ '/' :: joinSegs (r :: t) ≠ []
      simp

theorem joinSegs_headD (segs : List (List Char)) (s : List Char)
    (rest : List (List Char)) (h : segs = s :: rest) (hs : s ≠ []) :
    (joinSegs segs).headD ' ' = s.headD ' ' := by
  subst h
  cases rest with
  | nil =>
    rfl
  | cons r t =>
    show (s ++ '/' :: joinSegs (r :: t)).headD ' ' = s.headD ' '
    cases s with
    | nil => exact absurd rfl hs
    | cons c s' => rfl

theorem takeWhile_all {α : Type} (p : α → Bool) (l : List α)
    (h : ∀ x ∈ l, p x = true) : l.takeWhile p = l := by
  induction l with
  | nil => rfl
  | cons a l ih =>
    rw [List.takeWhile_cons_of_pos (h a (List.mem_cons_self a l))]
    rw [ih (fun x hx => h x (List.mem_cons_of_mem a hx))]

theorem dropWhile_all {α : Type} (p : α → Bool) (l : List α)
    (h : ∀ x ∈ l, p x = true) : l.dropWhile p = [] := by
  induction l with
  | nil => rfl
  | cons a l ih =>
    rw [List.dropWhile_cons_of_pos (h a (List.mem_cons_self a l))]
    exact ih (fun x hx => h x (List.mem_cons_of_mem a hx))

theorem takeWhile_append_all {α : Type} (p : α → Bool) (xs ys : List α)
    (h : ∀ x ∈ xs, p x = true) :
    (xs ++ ys).takeWhile p = xs ++ ys.takeWhile p := by
  induction xs with
  | nil => rfl
  | cons a xs ih =>
    rw [List.cons_append,
      List.takeWhile_cons_of_pos (h a (List.mem_cons_self a xs)),
      ih (fun x hx => h x (List.mem_cons_of_mem a hx)), List.cons_append]

theorem dropWhile_append_all {α : Type} (p : α → Bool) (xs ys : List α)
    (h : ∀ x ∈ xs, p x = true) :
    (xs ++ ys).dropWhile p = ys.dropWhile p := by
  induction xs with
  | nil => rfl
  | cons a xs ih =>
    rw [List.cons_append,
      List.dropWhile_cons_of_pos (h a (List.mem_cons_self a xs)),
      ih (fun x hx => h x (List.mem_cons_of_mem a hx))]

theorem reverse_append_sep (a b : List Char) :
    (a ++ '/' :: b).reverse = b.reverse ++ '/' :: a.reverse := by
  rw [List.reverse_append, List.reverse_cons, List.append_assoc]
  rfl

/-- `posixBasenamePlain` of a clean join is the last segment. -/
theorem posixBasenamePlain_join (ss : List (List Char)) (b : List Char)
    (hb : b ≠ []) (hbs : ('/') ∉ b) :
    posixBasenamePlain (joinSegs (ss ++ [b])) = b := by
  have hball : ∀ x ∈ b.reverse, (decide (x ≠ '/')) = true := by
    intro x hx
    rw [List.mem_reverse] at hx
    simp only [decide_eq_true_eq]
    intro hEq
    exact hbs (hEq ▸ hx)
  cases ss with
  | nil =>
    show posixBasenamePlain (joinSegs [b]) = b
    unfold posixBasenamePlain
    show (((b.reverse.dropWhile (fun c => c = '/')).takeWhile
      (fun c => c ≠ '/'))).reverse = b
    have h1 : b.reverse.dropWhile (fun c => c = '/') = b.reverse := by
      cases hr : b.reverse with
      | nil =>
        rfl
      | cons y ys =>
        rw [List.dropWhile_cons_of_neg]
        simp only [decide_eq_true_eq]
        intro hEq
        have : y ∈ b := by
          rw [← List.mem_reverse, hr]
          exact List.mem_cons_self y ys
        exact hbs (hEq ▸ this)
    rw [h1, takeWhile_all _ _ hball, List.reverse_reverse]
  | cons s0 ss' =>
    rw [joinSegs_append_singleton _ _ (by simp)]
    unfold posixBasenamePlain
    rw [reverse_append_sep]
    have h1 : (b.reverse ++ '/' :: (joinSegs (s0 :: ss')).reverse).dropWhile
        (fun c => c = '/') =
        b.reverse ++ '/' :: (joinSegs (s0 :: ss')).reverse := by
      cases hr : b.reverse with
      | nil => exact absurd (by simpa using hr) hb
      | cons y ys =>
        rw [List.cons_append, List.dropWhile_cons_of_neg]
        simp only [decide_eq_true_eq]
        intro hEq
        have : y ∈ b := by
          rw [← List.mem_reverse, hr]
          exact List.mem_cons_self y ys
        exact hbs (hEq ▸ this)
    rw [h1, takeWhile_append_all _ _ _ hball,
      List.takeWhile_cons_of_neg (by simp), List.append_nil,
      List.reverse_reverse]

/-- `posixDirname` of a clean join drops the last segment. -/
theorem posixDirname_join (ss : List (List Char)) (b : List Char)
    (hss : ∀ seg ∈ ss, seg ≠ [] ∧ ('/') ∉ seg)
    (hb : b ≠ []) (hbs : ('/') ∉ b) :
    posixDirname (joinSegs (ss ++ [b])) =
      if ss = [] then cs "." else joinSegs ss := by
  have hball : ∀ x ∈ b.reverse, (decide (x ≠ '/')) = true := by
    intro x hx
    rw [List.mem_reverse] at hx
    simp only [decide_eq_true_eq]
    intro hEq
    exact hbs (hEq ▸ hx)
  have hbrev : b.reverse.dropWhile (fun c => c = '/') = b.reverse := by
    cases hr : b.reverse with
    | nil => rfl
    | cons y ys =>
      rw [List.dropWhile_cons_of_neg]
      simp only [decide_eq_true_eq]
      intro hEq
      have hy : y ∈ b := by
        rw [← List.mem_reverse, hr]
        exact List.mem_cons_self y ys
      exact hbs (hEq ▸ hy)
  cases ss with
  | nil =>
    show posixDirname (joinSegs [b]) = cs "."
    unfold posixDirname
    rw [if_neg (by simpa using hb)]
    show (if 2 ≤ ((((joinSegs [b]).reverse.dropWhile (fun c => c = '/'))).dropWhile
        (fun c => c ≠ '/')).length then _ else _) = _
    have h1 : (joinSegs [b]).reverse.dropWhile (fun c => c = '/') =
        b.reverse := hbrev
    rw [h1, dropWhile_all _ _ hball]
    rw [if_neg (by simp)]
    rw [if_neg (by
      have hh := joinSegs_headD [b] b [] rfl hb
      rw [hh]
      obtain ⟨c, b', rfl⟩ : ∃ c b', b = c :: b' := by
        cases hbb : b with
        | nil => exact absurd hbb hb
        | cons c b' => exact ⟨c, b', rfl⟩
      simp only [List.headD_cons]
      intro hEq
      exact hbs (hEq ▸ List.mem_cons_self c b'))]
  | cons s0 ss' =>
    rw [if_neg (by simp)]
    rw [joinSegs_append_singleton _ _ (by simp)]
    have hA : joinSegs (s0 :: ss') ≠ [] :=
      joinSegs_ne_nil _ (by simp) (fun seg hseg => (hss seg hseg).1)
    have hroot : ¬((joinSegs (s0 :: ss') ++ '/' :: b).headD ' ' = '/') := by
      obtain ⟨c, s0', rfl⟩ : ∃ c s0', s0 = c :: s0' := by
        cases hs0 : s0 with
        | nil => exact absurd hs0 (hss s0 (List.mem_cons_self s0 ss')).1
        | cons c s0' => exact ⟨c, s0', rfl⟩
      have h2 := joinSegs_headD ((c :: s0') :: ss') (c :: s0') ss' rfl
        (by simp)
      have hhead : (joinSegs ((c :: s0') :: ss') ++ '/' :: b).headD ' ' =
          c := by
        cases hj : joinSegs ((c :: s0') :: ss') with
        | nil => exact absurd hj hA
        | cons y ys =>
          rw [hj] at h2
          simp only [List.headD_cons] at h2
          subst h2
          rfl
      rw [hhead]
      intro hEq
      exact (hss (c :: s0') (List.mem_cons_self _ ss')).2
        (hEq ▸ List.mem_cons_self c s0')
    unfold posixDirname
    rw [if_neg (by simp)]
    rw [reverse_append_sep]
    have h1 : (b.reverse ++ '/' :: (joinSegs (s0 :: ss')).reverse).dropWhile
        (fun c => c = '/') =
        b.reverse ++ '/' :: (joinSegs (s0 :: ss')).reverse := by
      cases hr : b.reverse with
      | nil => exact absurd (by simpa using hr) hb
      | cons y ys =>
        have hy : y ∈ b := by
          rw [← List.mem_reverse, hr]
          exact List.mem_cons_self y ys
        show List.dropWhile (fun c => decide (c = '/'))
          (y :: (ys ++ '/' :: (joinSegs (s0 :: ss')).reverse)) =
          y :: (ys ++ '/' :: (joinSegs (s0 :: ss')).reverse)
        rw [List.dropWhile_cons_of_neg (by
          simp only [decide_eq_true_eq]
          intro hEq
          exact hbs (hEq ▸ hy))]
    rw [h1, dropWhile_append_all _ _ _ hball,
      List.dropWhile_cons_of_neg (by simp)]
    have hAlen : 1 ≤ (joinSegs (s0 :: ss')).length :=
      Nat.one_le_iff_ne_zero.mpr (by simpa using hA)
    rw [if_pos (by
      simp only [List.length_cons, List.length_reverse]
      omega)]
    have hdecroot : (decide ((joinSegs (s0 :: ss') ++ '/' :: b).headD ' ' =
        '/')) = false := decide_eq_false hroot
    rw [hdecroot]
    simp only [Bool.false_and, Bool.false_eq_true, if_false]
    simp only [List.length_cons, List.length_reverse, Nat.add_sub_cancel]
    exact List.take_left _ _

theorem processSegs_clean_go (segs : List (List Char)) (ab : Bool) :
    ∀ acc : List (List Char),
      (∀ seg ∈ segs, cleanSeg seg = true) →
      segs.foldl
        (fun acc seg =>
          if seg = [] || seg = cs "." then acc
          else if seg = cs ".." then
            if acc ≠ [] && acc.getLastD [] ≠ cs ".." then acc.dropLast
            else if ab then acc ++ [seg]
            else acc
          else acc ++ [seg]) acc = acc ++ segs := by
  induction segs with
  | nil => intro acc _; simp
  | cons seg rest ih =>
    intro acc h
    have hseg := h seg (List.mem_cons_self seg rest)
    unfold cleanSeg at hseg
    simp only [Bool.and_eq_true, decide_eq_true_eq] at hseg
    rw [List.foldl_cons]
    rw [if_neg (by
      simp only [Bool.or_eq_true, decide_eq_true_eq]
      rintro (h1 | h2)
      · exact hseg.1.1 h1
      · exact hseg.1.2 h2)]
    rw [if_neg hseg.2]
    rw [ih (acc ++ [seg]) (fun s hs => h s (List.mem_cons_of_mem seg hs))]
    simp

theorem processSegs_clean (segs : List (List Char)) (ab : Bool)
    (h : ∀ seg ∈ segs, cleanSeg seg = true) :
    processSegs segs ab = segs := by
  unfold processSegs
  have hgo := processSegs_clean_go segs ab [] h
  rw [List.nil_append] at hgo
  exact hgo

/-- Suffixes without a separator live inside the last segment. -/
theorem suffix_in_last_seg (ss : List (List Char)) (b suf : List Char)
    (hsuf : suf <:+ joinSegs (ss ++ [b])) (hs : ('/') ∉ suf) :
    suf <:+ b := by
  cases ss with
  | nil => exact hsuf
  | cons s0 ss' =>
    rw [joinSegs_append_singleton _ _ (by simp)] at hsuf
    by_cases hlen : suf.length ≤ b.length
    · have hb : b <:+ joinSegs (s0 :: ss') ++ '/' :: b := by
        refine ⟨joinSegs (s0 :: ss') ++ ['/'], ?_⟩
        rw [List.append_assoc]
        rfl
      exact List.suffix_of_suffix_length_le hsuf hb hlen
    · exfalso
      have hsb : ('/' :: b) <:+ joinSegs (s0 :: ss') ++ '/' :: b :=
        ⟨joinSegs (s0 :: ss'), rfl⟩
      have h2 : ('/' :: b) <:+ suf := by
        refine List.suffix_of_suffix_length_le hsb hsuf ?_
        simp only [List.length_cons]
        omega
      exact hs (h2.subset (List.mem_cons_self '/' b))

/-- Surgery on the final extension keeps a path well-formed: dropping a
separator-free suffix from the last segment and appending a
separator-free chunk that does not end in `'.'`. -/
theorem wf_dropSuffix_append (p suf new : List Char)
    (hwf : WellFormedRel p = true) (hsuf : endsWith p suf = true)
    (hsufs : ('/') ∉ suf)
    (hnew : new ≠ []) (hnews : ('/') ∉ new)
    (c : Char) (hc : new.getLast? = some c) (hcdot : c ≠ '.') :
    WellFormedRel (dropSuffix p suf ++ new) = true := by
  unfold WellFormedRel at hwf
  simp only [Bool.and_eq_true, decide_eq_true_eq, List.all_eq_true] at hwf
  obtain ⟨hp, hclean⟩ := hwf
  have hsegs0 : splitSlash p ≠ [] := splitOnChar_ne_nil '/' p
  obtain ⟨ss, b, hsegsEq⟩ : ∃ ss b, splitSlash p = ss ++ [b] :=
    ⟨_, _, (List.dropLast_concat_getLast hsegs0).symm⟩
  have hjoin : joinSegs (ss ++ [b]) = p := by
    rw [← hsegsEq]
    exact joinSegs_splitSlash p
  have hnoslash : ∀ seg ∈ splitSlash p, ('/') ∉ seg :=
    splitOnChar_no_sep '/' p
  have hbmem : b ∈ splitSlash p := by
    rw [hsegsEq]
    exact List.mem_append.mpr (Or.inr (List.mem_cons_self b []))
  have hbs : ('/') ∉ b := hnoslash b hbmem
  have hsufb : suf <:+ b := by
    apply suffix_in_last_seg ss b suf ?_ hsufs
    rw [hjoin]
    obtain ⟨t0, hEq⟩ := (endsWith_iff p suf).mp hsuf
    exact ⟨t0, hEq.symm⟩
  obtain ⟨t, htEq⟩ := hsufb
  subst htEq
  have hdrop : dropSuffix p suf ++ new = joinSegs (ss ++ [t ++ new]) := by
    rw [← hjoin]
    cases hssE : ss with
    | nil =>
      show dropSuffix (joinSegs [t ++ suf]) suf ++ new = joinSegs [t ++ new]
      show dropSuffix (t ++ suf) suf ++ new = t ++ new
      rw [dropSuffix_append]
    | cons s0 ss' =>
      rw [joinSegs_append_singleton _ _ (by simp),
        joinSegs_append_singleton _ _ (by simp)]
      have hassoc : joinSegs (s0 :: ss') ++ '/' :: (t ++ suf) =
          (joinSegs (s0 :: ss') ++ '/' :: t) ++ suf := by
        rw [List.append_assoc]
        rfl
      rw [hassoc, dropSuffix_append, List.append_assoc]
      rfl
  rw [hdrop]
  have hnewseg : cleanSeg (t ++ new) = true ∧ ('/') ∉ t ++ new := by
    constructor
    · unfold cleanSeg
      simp only [Bool.and_eq_true, decide_eq_true_eq]
      have hlast : (t ++ new).getLast? = some c := by
        rw [List.getLast?_append_of_ne_nil t hnew]
        exact hc
      refine ⟨⟨by simp [hnew], ?_⟩, ?_⟩
      · intro hEq
        rw [hEq] at hlast
        simp only [show (cs ".").getLast? = some '.' from rfl] at hlast
        exact hcdot (by injection hlast with h'; exact h'.symm)
      · intro hEq
        rw [hEq] at hlast
        simp only [show (cs "..").getLast? = some '.' from rfl] at hlast
        exact hcdot (by injection hlast with h'; exact h'.symm)
    · intro hmem
      rcases List.mem_append.mp hmem with h' | h'
      · exact hbs (List.mem_append.mpr (Or.inl h'))
      · exact hnews h'
  unfold WellFormedRel
  simp only [Bool.and_eq_true, decide_eq_true_eq, List.all_eq_true]
  have hsplitr : splitSlash (joinSegs (ss ++ [t ++ new])) =
      ss ++ [t ++ new] := by
    apply splitSlash_join_clean _ (by simp)
    intro seg hseg
    rcases List.mem_append.mp hseg with h' | h'
    · exact hnoslash seg (hsegsEq ▸ List.mem_append.mpr (Or.inl h'))
    · simp only [List.mem_singleton] at h'
      subst h'
      exact hnewseg.2
  constructor
  · apply joinSegs_ne_nil _ (by simp)
    intro seg hseg
    rcases List.mem_append.mp hseg with h' | h'
    · have := hclean seg (hsegsEq ▸ List.mem_append.mpr (Or.inl h'))
      unfold cleanSeg at this
      simp only [Bool.and_eq_true, decide_eq_true_eq] at this
      exact this.1.1
    · simp only [List.mem_singleton] at h'
      subst h'
      have := hnewseg.1
      unfold cleanSeg at this
      simp only [Bool.and_eq_true, decide_eq_true_eq] at this
      exact this.1.1
  · rw [hsplitr]
    intro seg hseg
    rcases List.mem_append.mp hseg with h' | h'
    · exact hclean seg (hsegsEq ▸ List.mem_append.mpr (Or.inl h'))
    · simp only [List.mem_singleton] at h'
      subst h'
      exact hnewseg.1

theorem wf_stripLocale (p : List Char) (h : WellFormedRel p = true) :
    WellFormedRel (stripLocaleSuffix p) = true := by
  unfold stripLocaleSuffix
  by_cases h1 : endsWith p (cs ".en.mdx") = true
  · rw [if_pos h1]
    exact wf_dropSuffix_append p (cs ".en.mdx") (cs ".mdx") h h1 (by decide)
      (by decide) (by decide) 'x' (by decide) (by decide)
  · rw [if_neg h1]
    by_cases h2 : endsWith p (cs ".ru.mdx") = true
    · rw [if_pos h2]
      exact wf_dropSuffix_append p (cs ".ru.mdx") (cs ".mdx") h h2 (by decide)
        (by decide) (by decide) 'x' (by decide) (by decide)
    · rw [if_neg h2]
      by_cases h3 : endsWith p (cs ".en.md") = true
      · rw [if_pos h3]
        exact wf_dropSuffix_append p (cs ".en.md") (cs ".md") h h3 (by decide)
          (by decide) (by decide) 'd' (by decide) (by decide)
      · rw [if_neg h3]
        by_cases h4 : endsWith p (cs ".ru.md") = true
        · rw [if_pos h4]
          exact wf_dropSuffix_append p (cs ".ru.md") (cs ".md") h h4
            (by decide) (by decide) (by decide) 'd' (by decide) (by decide)
        · rw [if_neg h4]
          exact h

theorem wf_rewriteExt (p : List Char) (h : WellFormedRel p = true) :
    WellFormedRel (rewriteExtToMd p) = true := by
  unfold rewriteExtToMd
  by_cases h1 : endsWith p (cs ".mdx") = true
  · rw [if_pos h1]
    exact wf_dropSuffix_append p (cs ".mdx") (cs ".md") h h1 (by decide)
      (by decide) (by decide) 'd' (by decide) (by decide)
  · rw [if_neg h1]
    by_cases h2 : endsWith p (cs ".md") = true
    · rw [if_pos h2]
      exact wf_dropSuffix_append p (cs ".md") (cs ".md") h h2 (by decide)
        (by decide) (by decide) 'd' (by decide) (by decide)
    · rw [if_neg h2]
      exact h

theorem rewriteExtToMd_id (p : List Char)
    (hmdx : endsWith p (cs ".mdx") = false) : rewriteExtToMd p = p := by
  unfold rewriteExtToMd
  rw [hmdx]
  simp only [Bool.false_eq_true, if_false]
  by_cases h2 : endsWith p (cs ".md") = true
  · rw [if_pos h2]
    obtain ⟨t, rfl⟩ := (endsWith_iff _ _).mp h2
    rw [dropSuffix_append]
  · rw [if_neg h2]

theorem wf_decomp (p : List Char) (h : WellFormedRel p = true) :
    ∃ ss b, splitSlash p = ss ++ [b] ∧ joinSegs (ss ++ [b]) = p ∧
      (∀ seg ∈ ss ++ [b], cleanSeg seg = true ∧ ('/') ∉ seg) := by
  unfold WellFormedRel at h
  simp only [Bool.and_eq_true, decide_eq_true_eq, List.all_eq_true] at h
  obtain ⟨hp, hclean⟩ := h
  have hsegs0 : splitSlash p ≠ [] := splitOnChar_ne_nil '/' p
  refine ⟨(splitSlash p).dropLast, (splitSlash p).getLast hsegs0,
    (List.dropLast_concat_getLast hsegs0).symm, ?_, ?_⟩
  · rw [List.dropLast_concat_getLast hsegs0]
    exact joinSegs_splitSlash p
  · intro seg hseg
    have hmem : seg ∈ splitSlash p := by
      rw [← List.dropLast_concat_getLast hsegs0]
      exact hseg
    exact ⟨hclean seg hmem, splitOnChar_no_sep '/' p seg hmem⟩

theorem posixBasenameExt_md_char (q b : List Char)
    (hplain : posixBasenamePlain q = b) (hble : b.length ≤ q.length)
    (hb : b ≠ []) :
    posixBasenameExt q (cs ".md") =
      if endsWith b (cs ".md") = true ∧ b ≠ cs ".md" then
        dropSuffix b (cs ".md") else b := by
  unfold posixBasenameExt
  by_cases hlen : (cs ".md").length ≤ q.length
  · rw [if_pos (by
      rw [decide_eq_true hlen]
      rfl)]
    rw [hplain, if_neg hb]
    by_cases hEnd : endsWith b (cs ".md") = true
    · by_cases hNe : b = cs ".md"
      · rw [if_neg (by
          rw [hEnd, decide_eq_false (show ¬b ≠ cs ".md" by simpa using hNe)]
          simp)]
        rw [if_neg (by
          rintro ⟨_, hcontra⟩
          exact hcontra hNe)]
      · rw [if_pos (by
          rw [hEnd, decide_eq_true hNe]
          rfl)]
        rw [if_pos ⟨hEnd, hNe⟩]
    · have hEnd' : endsWith b (cs ".md") = false :=
        Bool.not_eq_true _ |>.mp hEnd
      rw [if_neg (by
        rw [hEnd']
        simp)]
      rw [if_neg (by
        rintro ⟨hcontra, _⟩
        exact hEnd hcontra)]
  · rw [if_neg (by
      intro hcontra
      simp only [Bool.and_eq_true, decide_eq_true_eq] at hcontra
      exact hlen hcontra.2)]
    rw [hplain]
    rw [if_neg (by
      rintro ⟨hEnd, _⟩
      obtain ⟨t, rfl⟩ := (endsWith_iff _ _).mp hEnd
      apply hlen
      calc (cs ".md").length ≤ (t ++ cs ".md").length := by
            simp [List.length_append]
        _ ≤ q.length := hble)]

theorem headD_ne_slash_append (a y : List Char) (haA : a ≠ [])
    (h : a.headD ' ' ≠ '/') : (a ++ y).headD ' ' ≠ '/' := by
  cases a with
  | nil => exact absurd rfl haA
  | cons c a' => exact h

theorem joinSegs_clean_headD_ne_slash (ss : List (List Char))
    (hss0 : ss ≠ [])
    (hclean : ∀ seg ∈ ss, cleanSeg seg = true ∧ ('/') ∉ seg) :
    (joinSegs ss).headD ' ' ≠ '/' := by
  cases ss with
  | nil => exact absurd rfl hss0
  | cons s0 rest =>
    have hs0 := hclean s0 (List.mem_cons_self s0 rest)
    have hs0ne : s0 ≠ [] := by
      have := hs0.1
      unfold cleanSeg at this
      simp only [Bool.and_eq_true, decide_eq_true_eq] at this
      exact this.1.1
    rw [joinSegs_headD (s0 :: rest) s0 rest rfl hs0ne]
    cases s0 with
    | nil => exact absurd rfl hs0ne
    | cons c s0' =>
      simp only [List.headD_cons]
      intro hEq
      exact hs0.2 (hEq ▸ List.mem_cons_self c s0')

/-- `path.join(dir, name)` on a clean directory join and a clean,
separator-free final name is plain concatenation. -/
theorem joinList_clean_pair (ss : List (List Char)) (x : List Char)
    (hss0 : ss ≠ [])
    (hclean : ∀ seg ∈ ss, cleanSeg seg = true ∧ ('/') ∉ seg)
    (hx : cleanSeg x = true) (hxs : ('/') ∉ x)
    (d : Char) (hd : x.getLast? = some d) (hdne : d ≠ '/') :
    joinList [joinSegs ss, x] = joinSegs (ss ++ [x]) := by
  have hxne : x ≠ [] := by
    unfold cleanSeg at hx
    simp only [Bool.and_eq_true, decide_eq_true_eq] at hx
    exact hx.1.1
  have hA : joinSegs ss ≠ [] :=
    joinSegs_ne_nil ss hss0 (fun seg hseg => by
      have := (hclean seg hseg).1
      unfold cleanSeg at this
      simp only [Bool.and_eq_true, decide_eq_true_eq] at this
      exact this.1.1)
  unfold joinList
  have hfil : ([joinSegs ss, x].filter (fun s => s ≠ [])) =
      [joinSegs ss, x] := by
    simp [List.filter, hA, hxne]
  rw [hfil]
  rw [if_neg (by simp)]
  have hpair : joinSegs [joinSegs ss, x] = joinSegs ss ++ '/' :: x := rfl
  rw [hpair]
  have hjoin : joinSegs ss ++ '/' :: x = joinSegs (ss ++ [x]) :=
    (joinSegs_append_singleton ss x hss0).symm
  unfold posixNormalize
  rw [if_neg (by simp [hA])]
  have hhead : (joinSegs ss ++ '/' :: x).headD ' ' ≠ '/' :=
    headD_ne_slash_append _ _ hA (joinSegs_clean_headD_ne_slash ss hss0 hclean)
  have htail : (joinSegs ss ++ '/' :: x).getLastD ' ' ≠ '/' := by
    have h1 : (joinSegs ss ++ '/' :: x).getLast? = x.getLast? := by
      rw [List.getLast?_append_of_ne_nil _ (by simp : ('/' :: x) ≠ [])]
      show (['/'] ++ x).getLast? = x.getLast?
      rw [List.getLast?_append_of_ne_nil _ hxne]
    rw [List.getLastD_eq_getLast?, h1, hd]
    simpa using hdne
  have hsplit : splitSlash (joinSegs ss ++ '/' :: x) = ss ++ [x] := by
    rw [hjoin]
    apply splitSlash_join_clean _ (by simp)
    intro seg hseg
    rcases List.mem_append.mp hseg with h' | h'
    · exact (hclean seg h').2
    · simp only [List.mem_singleton] at h'
      subst h'
      exact hxs
  have hproc : processSegs (splitSlash (joinSegs ss ++ '/' :: x))
      (!decide ((joinSegs ss ++ '/' :: x).headD ' ' = '/')) = ss ++ [x] := by
    rw [hsplit]
    apply processSegs_clean
    intro seg hseg
    rcases List.mem_append.mp hseg with h' | h'
    · exact (hclean seg h').1
    · simp only [List.mem_singleton] at h'
      subst h'
      exact hx
  dsimp only
  rw [hproc, hjoin]
  have hne : joinSegs (ss ++ [x]) ≠ [] := by
    apply joinSegs_ne_nil _ (by simp)
    intro seg hseg
    rcases List.mem_append.mp hseg with h' | h'
    · have := (hclean seg h').1
      unfold cleanSeg at this
      simp only [Bool.and_eq_true, decide_eq_true_eq] at this
      exact this.1.1
    · simp only [List.mem_singleton] at h'
      subst h'
      exact hxne
  rw [if_neg hne]
  rw [if_neg (by rw [hjoin] at hhead; exact hhead)]
  rw [if_neg (by rw [hjoin] at htail; exact htail)]

/-- C7 counterexample: the normalization is not idempotent — a doubled
locale suffix is stripped one layer per application, so
`x.en.en.md` normalizes to `x.en.md`, which normalizes again to
`x.md`. -/
theorem c7_urlpath_counterexample :
    WellFormedRel (cs "x.en.en.md") = true ∧
    urlPathOf (cs "x.en.en.md") = cs "x.en.md" ∧
    urlPathOf (urlPathOf (cs "x.en.en.md")) ≠ urlPathOf (cs "x.en.en.md") := by
  decide

/-- C7 amended: on well-formed relative paths the normalization is
idempotent whenever its output does not itself end in a locale suffix
`.en.md` / `.ru.md` (which a doubled locale suffix, or index-aliasing
under a locale-suffixed directory name, can reintroduce). -/
theorem c7_urlpath_amended (p : List Char) (hwf : WellFormedRel p = true)
    (hen : endsWith (urlPathOf p) (cs ".en.md") = false)
    (hru : endsWith (urlPathOf p) (cs ".ru.md") = false) :
    urlPathOf (urlPathOf p) = urlPathOf p := by
  have hwfp' : WellFormedRel (rewriteExtToMd (stripLocaleSuffix p)) = true :=
    wf_rewriteExt _ (wf_stripLocale _ hwf)
  obtain ⟨ss, b, hsegsEq, hjoin, hcleanAll⟩ := wf_decomp _ hwfp'
  have hbclean : cleanSeg b = true ∧ ('/') ∉ b :=
    hcleanAll b (List.mem_append.mpr (Or.inr (List.mem_cons_self b [])))
  have hbne : b ≠ [] := by
    have := hbclean.1
    unfold cleanSeg at this
    simp only [Bool.and_eq_true, decide_eq_true_eq] at this
    exact this.1.1
  have hplain : posixBasenamePlain (rewriteExtToMd (stripLocaleSuffix p)) =
      b := by
    rw [← hjoin]
    exact posixBasenamePlain_join ss b hbne hbclean.2
  have hble : b.length ≤ (rewriteExtToMd (stripLocaleSuffix p)).length := by
    rw [← hjoin]
    cases ss with
    | nil => exact Nat.le_refl _
    | cons s0 ss' =>
      rw [joinSegs_append_singleton _ _ (by simp)]
      simp only [List.length_append, List.length_cons]
      omega
  have hup : urlPathOf p =
      (if posixBasenameExt (rewriteExtToMd (stripLocaleSuffix p))
            (cs ".md") = cs "index" ∨
          posixBasenameExt (rewriteExtToMd (stripLocaleSuffix p))
            (cs ".md") = cs "_index" then
        if posixBasenamePlain (posixDirname (rewriteExtToMd
            (stripLocaleSuffix p))) ≠ [] then
          joinList [posixDirname (rewriteExtToMd (stripLocaleSuffix p)),
            posixBasenamePlain (posixDirname (rewriteExtToMd
              (stripLocaleSuffix p))) ++ cs ".md"]
        else rewriteExtToMd (stripLocaleSuffix p)
      else rewriteExtToMd (stripLocaleSuffix p)) := by
    unfold urlPathOf
    rfl
  have hmdx : endsWith (rewriteExtToMd (stripLocaleSuffix p)) (cs ".mdx") =
      false := rewriteExtToMd_not_mdx _
  by_cases hidx : posixBasenameExt (rewriteExtToMd (stripLocaleSuffix p))
      (cs ".md") = cs "index" ∨
      posixBasenameExt (rewriteExtToMd (stripLocaleSuffix p)) (cs ".md") =
        cs "_index"
  · -- index aliasing fires
    have hdir : posixDirname (rewriteExtToMd (stripLocaleSuffix p)) =
        if ss = [] then cs "." else joinSegs ss := by
      rw [← hjoin]
      apply posixDirname_join ss b ?_ hbne hbclean.2
      intro seg hseg
      have h' := hcleanAll seg (List.mem_append.mpr (Or.inl hseg))
      refine ⟨?_, h'.2⟩
      have := h'.1
      unfold cleanSeg at this
      simp only [Bool.and_eq_true, decide_eq_true_eq] at this
      exact this.1.1
    cases ss with
    | nil =>
      have hdir2 : posixDirname (rewriteExtToMd (stripLocaleSuffix p)) =
          cs "." := by
        rw [hdir]
        simp
      have hq : urlPathOf p = joinList [cs ".", cs "." ++ cs ".md"] := by
        rw [hup, if_pos hidx, hdir2]
        rw [show posixBasenamePlain (cs ".") = cs "." from rfl]
        rw [if_pos (by decide : (cs "." : List Char) ≠ [])]
      have hqval : joinList [cs ".", cs "." ++ cs ".md"] = cs "..md" := by
        decide
      rw [hq, hqval]
      decide
    | cons s0 ss' =>
      have hcleanSS : ∀ seg ∈ (s0 :: ss'),
          cleanSeg seg = true ∧ ('/') ∉ seg :=
        fun seg hseg => hcleanAll seg (List.mem_append.mpr (Or.inl hseg))
      have hssne : (s0 :: ss') ≠ [] := by simp
      obtain ⟨ss2, dn, hssEq⟩ : ∃ ss2 dn, s0 :: ss' = ss2 ++ [dn] :=
        ⟨_, _, (List.dropLast_concat_getLast hssne).symm⟩
      have hdnmem : dn ∈ s0 :: ss' := by
        rw [hssEq]
        exact List.mem_append.mpr (Or.inr (List.mem_cons_self dn []))
      have hdnclean := hcleanSS dn hdnmem
      have hdnne : dn ≠ [] := by
        have := hdnclean.1
        unfold cleanSeg at this
        simp only [Bool.and_eq_true, decide_eq_true_eq] at this
        exact this.1.1
      have hdir2 : posixDirname (rewriteExtToMd (stripLocaleSuffix p)) =
          joinSegs (s0 :: ss') := by
        rw [hdir, if_neg (by simp)]
      have hdirName : posixBasenamePlain (joinSegs (s0 :: ss')) = dn := by
        conv_lhs => rw [hssEq]
        exact posixBasenamePlain_join ss2 dn hdnne hdnclean.2
      have hxne : dn ++ cs ".md" ≠ [] := by
        intro h
        exact absurd (List.append_eq_nil.mp h).2 (by decide)
      have hxlast : (dn ++ cs ".md").getLast? = some 'd' := by
        rw [List.getLast?_append_of_ne_nil dn (by decide)]
        rfl
      have hx : cleanSeg (dn ++ cs ".md") = true := by
        unfold cleanSeg
        simp only [Bool.and_eq_true, decide_eq_true_eq]
        refine ⟨⟨hxne, ?_⟩, ?_⟩
        · intro hEq
          rw [hEq] at hxlast
          cases hxlast
        · intro hEq
          rw [hEq] at hxlast
          cases hxlast
      have hxs : ('/') ∉ dn ++ cs ".md" := by
        intro hmem
        rcases List.mem_append.mp hmem with h' | h'
        · exact hdnclean.2 h'
        · exact absurd h' (by decide)
      have hjq : joinList [joinSegs (s0 :: ss'), dn ++ cs ".md"] =
          joinSegs ((s0 :: ss') ++ [dn ++ cs ".md"]) :=
        joinList_clean_pair (s0 :: ss') (dn ++ cs ".md") hssne hcleanSS hx
          hxs 'd' hxlast (by decide)
      have hq : urlPathOf p =
          joinSegs ((s0 :: ss') ++ [dn ++ cs ".md"]) := by
        rw [hup, if_pos hidx, hdir2, hdirName, if_pos hdnne]
        exact hjq
      rw [hq] at hen hru ⊢
      -- idempotence on the aliased output
      have hqmd : endsWith (joinSegs ((s0 :: ss') ++ [dn ++ cs ".md"]))
          (cs ".md") = true := by
        rw [joinSegs_append_singleton _ _ hssne]
        have hassoc : joinSegs (s0 :: ss') ++ '/' :: (dn ++ cs ".md") =
            (joinSegs (s0 :: ss') ++ '/' :: dn) ++ cs ".md" := by
          rw [List.append_assoc]
          rfl
        rw [hassoc]
        exact endsWith_append _ _
      have hqmdx : endsWith (joinSegs ((s0 :: ss') ++ [dn ++ cs ".md"]))
          (cs ".mdx") = false := not_endsWith_mdx_of_endsWith_md _ hqmd
      have hs1 : stripLocaleSuffix (joinSegs ((s0 :: ss') ++
          [dn ++ cs ".md"])) = joinSegs ((s0 :: ss') ++ [dn ++ cs ".md"]) :=
        stripLocaleSuffix_id _ hqmdx hen hru
      have hs2 : rewriteExtToMd (joinSegs ((s0 :: ss') ++
          [dn ++ cs ".md"])) = joinSegs ((s0 :: ss') ++ [dn ++ cs ".md"]) :=
        rewriteExtToMd_id _ hqmdx
      have hqplain : posixBasenamePlain (joinSegs ((s0 :: ss') ++
          [dn ++ cs ".md"])) = dn ++ cs ".md" :=
        posixBasenamePlain_join (s0 :: ss') _ hxne hxs
      have hqble : (dn ++ cs ".md").length ≤
          (joinSegs ((s0 :: ss') ++ [dn ++ cs ".md"])).length := by
        rw [joinSegs_append_singleton _ _ hssne]
        simp only [List.length_append, List.length_cons]
        omega
      have hqbase : posixBasenameExt (joinSegs ((s0 :: ss') ++
          [dn ++ cs ".md"])) (cs ".md") = dn := by
        rw [posixBasenameExt_md_char _ _ hqplain hqble hxne]
        rw [if_pos ⟨endsWith_append _ _, by
          intro hEq
          have hlen := congrArg List.length hEq
          simp only [List.length_append] at hlen
          have : dn.length = 0 := by
            have h3 : (cs ".md").length = 3 := rfl
            omega
          exact hdnne (List.length_eq_zero.mp this)⟩]
        exact dropSuffix_append dn (cs ".md")
      have hqdir : posixDirname (joinSegs ((s0 :: ss') ++
          [dn ++ cs ".md"])) = joinSegs (s0 :: ss') := by
        have := posixDirname_join (s0 :: ss') (dn ++ cs ".md")
          (fun seg hseg => by
            have h' := hcleanSS seg hseg
            refine ⟨?_, h'.2⟩
            have := h'.1
            unfold cleanSeg at this
            simp only [Bool.and_eq_true, decide_eq_true_eq] at this
            exact this.1.1) hxne hxs
        rw [this, if_neg (by simp)]
      show urlPathOf _ = _
      unfold urlPathOf
      rw [hs1, hs2]
      dsimp only
      rw [hqbase]
      by_cases hdi : dn = cs "index" ∨ dn = cs "_index"
      · rw [if_pos hdi, hqdir, hdirName, if_pos hdnne]
        exact hjq
      · rw [if_neg hdi]
  · -- no aliasing: the output is the locale/extension-normalized path
    have hq : urlPathOf p = rewriteExtToMd (stripLocaleSuffix p) := by
      rw [hup, if_neg hidx]
    rw [hq] at hen hru ⊢
    have hs1 : stripLocaleSuffix (rewriteExtToMd (stripLocaleSuffix p)) =
        rewriteExtToMd (stripLocaleSuffix p) :=
      stripLocaleSuffix_id _ hmdx hen hru
    have hs2 : rewriteExtToMd (rewriteExtToMd (stripLocaleSuffix p)) =
        rewriteExtToMd (stripLocaleSuffix p) := rewriteExtToMd_id _ hmdx
    show urlPathOf _ = _
    unfold urlPathOf
    rw [hs1, hs2]
    dsimp only
    rw [if_neg hidx]

/-- C7 witness: idempotence at the index-aliasing scenario path. -/
theorem c7_urlpath_witness :
    urlPathOf (urlPathOf (cs "posts/my-article/index.mdx")) =
      urlPathOf (cs "posts/my-article/index.mdx") :=
  c7_urlpath_amended (cs "posts/my-article/index.mdx") (by decide)
    (by decide) (by decide)
